import Mathlib

/-!
# Compressed-materialization string codec (DuckDB)

A shallow embedding of
`src/function/scalar/compressed_materialization/compressed_materialization_string.cpp`, and of
the containment test of `extension/json/json_functions/json_contains.cpp`.

Conventions of the embedding:

* a byte is a natural number below 256 (`IsBytes`), a block of memory is a `List Nat`;
* an integer of `w` bytes is its bit pattern, a `Nat` below `256 ^ w`; the host is
  little-endian, so the pattern `x` occupies memory as `toBytesLE w x`;
* a C++ exception is the `error` side of `Except`.
-/

namespace duckdb

/-! ## Memory -/

/-- A block of memory holds bytes: every cell is below 256. -/
def IsBytes (v : List Nat) : Prop := ∀ b ∈ v, b < 256

instance (v : List Nat) : Decidable (IsBytes v) := by
  unfold IsBytes; infer_instance

/-- Native (little-endian) load: the integer whose memory image is `bs`. -/
def fromBytesLE : List Nat → Nat
  | [] => 0
  | b :: bs => b + 256 * fromBytesLE bs

/-- Native (little-endian) store: the `w`-byte memory image of `x`. -/
def toBytesLE : Nat → Nat → List Nat
  | 0, _ => []
  | w + 1, x => x % 256 :: toBytesLE w (x / 256)

/-- The call `memcpy(dst, src, n)`: the first `n` bytes of `dst` are replaced by those of `src`. -/
def memcpy (dst src : List Nat) (n : Nat) : List Nat :=
  src.take n ++ dst.drop n

/-- The call `memset(dst + off, c, n)`. -/
def memset (dst : List Nat) (off c n : Nat) : List Nat :=
  dst.take off ++ List.replicate n c ++ dst.drop (off + n)

/-- Modelled from the spec: the template `BSwap<T>` of `duckdb/common/bswap.hpp` is not part of
the sources at hand. For a `w`-byte `T` it is the spec's "byte-order reversal" between the
big-endian buffer and the native integer (for `hugeint_t` the two 64-bit halves are exchanged
and each is reversed, which is the reversal of all sixteen bytes). -/
def BSwap (w : Nat) (x : Nat) : Nat :=
  fromBytesLE (toBytesLE w x).reverse

/-! ## `string_t` -/

/-- The constant `string_t::INLINE_LENGTH`, the spec's "inline capacity": twelve bytes. -/
def INLINE_LENGTH : Nat := 12

/-- The constant `string_t::PREFIX_LENGTH`. -/
def PREFIX_LENGTH : Nat := 4

/-- The size in bytes of a `string_t`. -/
def sizeof_string_t : Nat := 16

/-- The size in bytes of a `uint32_t`. -/
def sizeof_uint32_t : Nat := 4

/-- Modelled from the spec: the declaration of `string_t` is not part of the sources at hand.
The value is a 16-byte header, a `uint32_t` length followed by twelve bytes, and possibly a
separate allocation (the spec's "stored inline or in a separate allocation", with its "inline
capacity"). `inlined` is the twelve bytes that follow the length: the content itself when
`length ≤ INLINE_LENGTH`, otherwise a four-byte prefix of the content and the address of the
allocation. `ptr` is the content of that allocation. Addresses are not tracked: the eight
address bytes of a value built by `string_t.ofData` read as zero. -/
structure string_t where
  length : Nat
  inlined : List Nat
  ptr : List Nat
  deriving DecidableEq, Repr

/-- The accessor `string_t::GetSize`. -/
def string_t.GetSize (s : string_t) : Nat := s.length

/-- The accessor `string_t::IsInlined`. -/
def string_t.IsInlined (s : string_t) : Bool := decide (s.GetSize ≤ INLINE_LENGTH)

/-- The accessor `string_t::GetDataUnsafe`: where the content starts. -/
def string_t.GetDataUnsafe (s : string_t) : List Nat :=
  if s.IsInlined then s.inlined else s.ptr

/-- The accessor `string_t::GetString`: the `GetSize()` bytes found at `GetDataUnsafe()`. -/
def string_t.GetString (s : string_t) : List Nat :=
  s.GetDataUnsafe.take s.GetSize

/-- The constructor `string_t(const char *data, uint32_t len)`: a short value is stored inline,
on inline storage that is zeroed first; a long one keeps a prefix and refers to `data`. -/
def string_t.ofData (data : List Nat) (len : Nat) : string_t :=
  if len ≤ INLINE_LENGTH then
    { length := len
      inlined := memcpy (List.replicate INLINE_LENGTH 0) data len
      ptr := [] }
  else
    { length := len
      inlined := memcpy (List.replicate INLINE_LENGTH 0) data PREFIX_LENGTH
      ptr := data.take len }

/-- The constructor `string_t(uint32_t len)`: only the length is set, the inline bytes keep what
the storage held before (`ambient`). -/
def string_t.ofLen (len : Nat) (ambient : List Nat) : string_t :=
  { length := len, inlined := ambient.take INLINE_LENGTH, ptr := [] }

/-- The `string_t` a caller passes for the byte string `v`. -/
def string_t.ofBytes (v : List Nat) : string_t := string_t.ofData v v.length

/-- Modelled from the spec: `StringVector::AddString(vector, data, len)` is not part of the
sources at hand. It is the "result sink capable of returning either an inline small value or
allocating heap-backed storage": the `len` bytes at `data` are copied into storage the vector
owns and the `string_t` for the copy is returned. -/
def AddString (data : List Nat) (len : Nat) : string_t :=
  string_t.ofData (data.take len) len

/-! ## The codec -/

/-- The exceptions the file throws. -/
inductive Exception where
  | InvalidInputException (size width : Nat)
  | InternalException
  deriving DecidableEq, Repr

/-- Results with exceptions can be compared. -/
instance instDecidableEqExcept {ε α : Type} [DecidableEq ε] [DecidableEq α] :
    DecidableEq (Except ε α) := fun a b =>
  match a, b with
  | .ok x, .ok y =>
    if h : x = y then isTrue (congrArg Except.ok h)
    else isFalse (fun h2 => h (Except.ok.inj h2))
  | .error x, .error y =>
    if h : x = y then isTrue (congrArg Except.error h)
    else isFalse (fun h2 => h (Except.error.inj h2))
  | .ok _, .error _ => isFalse (fun h2 => Except.noConfusion h2)
  | .error _, .ok _ => isFalse (fun h2 => Except.noConfusion h2)

/-- The types the templates are instantiated at. -/
inductive CType where
  | uint8_t | uint16_t | uint32_t | uint64_t | hugeint_t
  deriving DecidableEq, Repr

/-- The operator `sizeof`. -/
def CType.sizeof : CType → Nat
  | .uint8_t => 1
  | .uint16_t => 2
  | .uint32_t => 4
  | .uint64_t => 8
  | .hugeint_t => 16

/-- The primary template `StringCompress<RESULT_TYPE>` for a `w`-byte `RESULT_TYPE`. The local
`result` is followed as its memory image. -/
def StringCompressGeneric (w : Nat) (input : string_t) : Except Exception Nat :=
  if input.GetSize ≥ w then
    .error (.InvalidInputException input.GetSize w)
  else
    let result : List Nat :=
      if w ≤ INLINE_LENGTH then
        memcpy (List.replicate w 0) input.inlined w
      else
        memcpy (toBytesLE w 0) input.GetDataUnsafe input.GetSize
    let result := result.set (w - 1) (input.GetSize % 256)
    .ok (BSwap w (fromBytesLE result))

/-- The specialisation `StringCompress<uint16_t>`: no size test; the sum is converted to
`uint16_t`. -/
def StringCompress_uint16_t (input : string_t) : Nat :=
  if CType.uint16_t.sizeof ≤ INLINE_LENGTH then
    (input.GetSize + input.inlined.getD 0 0) % 2 ^ 16
  else
    (input.GetSize + input.GetDataUnsafe.getD 0 0) % 2 ^ 16

/-- The function `StringCompress<RESULT_TYPE>` as overload resolution selects it. -/
def StringCompress (T : CType) (input : string_t) : Except Exception Nat :=
  match T with
  | .uint16_t => .ok (StringCompress_uint16_t input)
  | T => StringCompressGeneric T.sizeof input

/-- The primary template `StringDecompress<INPUT_TYPE>` for a `w`-byte `INPUT_TYPE`. `ambient`
is the memory the function reads without having written it: the inline bytes of the freshly
declared `result` on the inline path, the bytes that follow the local `input_swapped` on the
other path. -/
def StringDecompressGeneric (w : Nat) (input : Nat) (ambient : List Nat) : string_t :=
  let input_swapped : List Nat := toBytesLE w (BSwap w input)
  let string_size : Nat := input_swapped.getD (w - 1) 0
  if w ≤ INLINE_LENGTH then
    let result := string_t.ofLen string_size ambient
    let bytes := memcpy result.inlined input_swapped w
    let bytes := memset bytes (w - 1) 0 (sizeof_string_t - sizeof_uint32_t - w)
    { result with inlined := bytes }
  else
    AddString (input_swapped ++ ambient) string_size

/-- The specialisation `StringDecompress<uint16_t>`. -/
def StringDecompress_uint16_t (input : Nat) (ambient : List Nat) : string_t :=
  if input = 0 then
    string_t.ofLen 0 ambient
  else if CType.uint16_t.sizeof ≤ INLINE_LENGTH then
    let c := (input - 1) % 256
    string_t.ofData [c] 1
  else
    let c := (input - 1) % 256
    AddString [c] 1

/-- The function `StringDecompress<INPUT_TYPE>` as overload resolution selects it. -/
def StringDecompress (T : CType) (input : Nat) (ambient : List Nat) : string_t :=
  match T with
  | .uint16_t => StringDecompress_uint16_t input ambient
  | T => StringDecompressGeneric T.sizeof input ambient


/-! ## Notions the properties are stated with -/

/-- The big-endian buffer of the general encoder for a `w`-byte result: the content
left-aligned, zero fill, and the length in the last byte. -/
def layout (w : Nat) (v : List Nat) : List Nat :=
  v ++ List.replicate (w - 1 - v.length) 0 ++ [v.length]

/-- Lexicographic byte order, `v1 ≤ v2`: the first differing byte decides, and a proper prefix
comes first. -/
def lexLe : List Nat → List Nat → Bool
  | [], _ => true
  | _ :: _, [] => false
  | a :: as, b :: bs => decide (a < b) || (a == b && lexLe as bs)

/-- The buffer `v ++ zeros ++ [k + length v]` of `n + 1` bytes, by recursion on `n`. -/
def tailPad : Nat → Nat → List Nat → List Nat
  | 0, k, _ => [k]
  | n + 1, k, [] => 0 :: tailPad n k []
  | n + 1, k, x :: xs => x :: tailPad n (k + 1) xs

/-- The type `hugeint_t`, declared outside the sources at hand: the 128-bit integer DuckDB
uses for `LogicalTypeId::HUGEINT`, a `uint64_t lower` followed by an `int64_t upper`. It is a
signed type, unlike the four unsigned types of the `UTINYINT`, `USMALLINT`, `UINTEGER` and
`UBIGINT` cases. -/
structure hugeint_t where
  lower : Nat
  upper : Int
  deriving DecidableEq, Repr

/-- The `hugeint_t` whose sixteen bytes hold the pattern `x`: the high half is read as a
two's-complement `int64_t`. -/
def hugeint_t.ofBits (x : Nat) : hugeint_t :=
  { lower := x % 2 ^ 64
    upper := if x / 2 ^ 64 % 2 ^ 64 < 2 ^ 63 then ((x / 2 ^ 64 % 2 ^ 64 : Nat) : Int)
             else ((x / 2 ^ 64 % 2 ^ 64 : Nat) : Int) - 2 ^ 64 }

/-- The comparison `hugeint_t::operator<=`. -/
def hugeint_t.le (a b : hugeint_t) : Bool :=
  decide (a.upper < b.upper) || (a.upper == b.upper && decide (a.lower ≤ b.lower))

/-- Lexicographic byte order, `v1 < v2`. -/
def lexLt (v1 v2 : List Nat) : Bool := !lexLe v2 v1

/-- The bytes of the `w`-byte pattern `e`, most significant first. -/
def bytesBE (w e : Nat) : List Nat :=
  (List.range w).reverse.map (fun i => e / 256 ^ i % 256)

/-- The `w - 1` high-order bytes of the `w`-byte pattern `e`, most significant first. -/
def contentBytes (w e : Nat) : List Nat := (bytesBE w e).take (w - 1)

/-- The enumeration `LogicalTypeId`, declared outside the sources at hand; the codec tells five
of its members from all the others. -/
inductive LogicalTypeId where
  | INVALID | SQLNULL | UNKNOWN | ANY | USER | BOOLEAN | TINYINT | SMALLINT | INTEGER | BIGINT
  | DATE | TIME | TIMESTAMP_SEC | TIMESTAMP_MS | TIMESTAMP | TIMESTAMP_NS | DECIMAL | FLOAT
  | DOUBLE | CHAR | VARCHAR | BLOB | INTERVAL | UTINYINT | USMALLINT | UINTEGER | UBIGINT
  | TIMESTAMP_TZ | TIME_TZ | BIT | HUGEINT | POINTER | VALIDITY | UUID | STRUCT | LIST | MAP
  | TABLE | ENUM | AGGREGATE_STATE | LAMBDA | UNION
  deriving DecidableEq, Repr

/-- The function `GetStringCompressFunctionSwitch`: the `RESULT_TYPE` at which
`GetStringCompressFunction` is instantiated for the result type of the given id. -/
def GetStringCompressFunctionSwitch : LogicalTypeId → Except Exception CType
  | .UTINYINT => .ok .uint8_t
  | .USMALLINT => .ok .uint16_t
  | .UINTEGER => .ok .uint32_t
  | .UBIGINT => .ok .uint64_t
  | .HUGEINT => .ok .hugeint_t
  | _ => .error .InternalException

/-- The function `GetStringDecompressFunctionSwitch`: the `INPUT_TYPE` at which
`GetStringDecompressFunction` is instantiated for the input type of the given id. -/
def GetStringDecompressFunctionSwitch : LogicalTypeId → Except Exception CType
  | .USMALLINT => .ok .uint16_t
  | .UINTEGER => .ok .uint32_t
  | .UBIGINT => .ok .uint64_t
  | .HUGEINT => .ok .hugeint_t
  | _ => .error .InternalException

/-- The decoder `CMStringDecompressFun::GetFunction(input_type)` hands out, applied to one
value. -/
def CMStringDecompress (input_type : LogicalTypeId) (input : Nat) (ambient : List Nat) :
    Except Exception string_t :=
  match GetStringDecompressFunctionSwitch input_type with
  | .ok T => .ok (StringDecompress T input ambient)
  | .error err => .error err

/-- The encoder `CMStringCompressFun::GetFunction(result_type)` hands out, applied to one
value. -/
def CMStringCompress (result_type : LogicalTypeId) (input : string_t) : Except Exception Nat :=
  match GetStringCompressFunctionSwitch result_type with
  | .ok T => StringCompress T input
  | .error err => .error err

/-- The first byte of a value of length at most one, `0` for the empty value. -/
def firstByte (v : List Nat) : Nat := v.headD 0

/-- The type ids for which the codec has an instantiation. -/
def supportedTypes : List LogicalTypeId :=
  [.UTINYINT, .USMALLINT, .UINTEGER, .UBIGINT, .HUGEINT]

/-- The sum `v[0] * 256 ^ (w - 1) + v[1] * 256 ^ (w - 2) + …` over the bytes of `v`. -/
def weightedSum (w : Nat) (v : List Nat) : Nat :=
  ((List.range v.length).map (fun i => v.getD i 0 * 256 ^ (w - 1 - i))).sum

/-- The integer whose big-endian `w`-byte form is `v` left-aligned, zero fill, and the length
of `v` in the lowest-order byte. -/
def encodedValue (w : Nat) (v : List Nat) : Nat := weightedSum w v + v.length

/-- The pattern `e` of `w` bytes has the form the general encoder produces: its lowest-order
byte `L` is below `w` and its content bytes at the big-endian positions `L … w - 2` are zero. -/
def IsCanonical (w e : Nat) : Prop :=
  e < 256 ^ w ∧ e % 256 < w ∧ ∀ i, i < w - 1 → e % 256 ≤ i → (bytesBE w e).getD i 0 = 0

instance (w e : Nat) : Decidable (IsCanonical w e) := by
  unfold IsCanonical; infer_instance

/-- Modelled from the spec: `UnaryExecutor::Execute` is not part of the sources at hand. It is
the spec's batch adapter: the function is applied to each of the `count` rows of the input
column in turn, "independently", with "no cross-row state", and an exception thrown for one row
leaves the call at once ("aborts the whole batch"). Rows are values; null rows are not
modelled. -/
def UnaryExecutor.Execute {α β : Type} (input : List α) (count : Nat)
    (fn : α → Except Exception β) : Except Exception (List β) :=
  match count, input with
  | 0, _ => .ok []
  | _ + 1, [] => .ok []
  | n + 1, x :: xs =>
    match fn x with
    | .error err => .error err
    | .ok y =>
      match UnaryExecutor.Execute xs n fn with
      | .error err => .error err
      | .ok ys => .ok (y :: ys)

/-- The function `StringCompressFunction<RESULT_TYPE>`: `args` is the column `args.data[0]`,
of `args.size()` rows. -/
def StringCompressFunction (T : CType) (args : List string_t) : Except Exception (List Nat) :=
  UnaryExecutor.Execute args args.length (StringCompress T)

/-- The function `StringDecompressFunction<INPUT_TYPE>`: `args` is the column `args.data[0]`,
of `args.size()` rows; `ambient i` is the memory the call for row `i` starts from. -/
def StringDecompressFunction (T : CType) (args : List Nat) (ambient : Nat → List Nat) :
    Except Exception (List string_t) :=
  UnaryExecutor.Execute args.enum args.length
    (fun row => .ok (StringDecompress T row.2 (ambient row.1)))

/-! ## JSON containment (`extension/json/json_functions/json_contains.cpp`) -/

/-- The JSON tree a `yyjson_val *` refers to. The yyjson library is outside the sources at
hand; a value is a scalar of one of its types, an array of values, or an object, a sequence of
members, each a key with a value. -/
inductive yyjson_val where
  | null
  | bool (b : Bool)
  | uint (n : Nat)
  | sint (n : Int)
  | real (bits : Nat)
  | str (s : String)
  | raw (s : String)
  | arr (elems : List yyjson_val)
  | obj (members : List (String × yyjson_val))
  deriving Repr

/-- The test `yyjson_get_tag(v) == (YYJSON_TYPE_ARR | YYJSON_SUBTYPE_NONE)`. -/
def yyjson_val.is_arr : yyjson_val → Bool
  | .arr _ => true
  | _ => false

/-- The test `yyjson_get_tag(v) == (YYJSON_TYPE_OBJ | YYJSON_SUBTYPE_NONE)`. -/
def yyjson_val.is_obj : yyjson_val → Bool
  | .obj _ => true
  | _ => false

/-- The values `yyjson_arr_foreach` visits, in order. -/
def yyjson_val.elems : yyjson_val → List yyjson_val
  | .arr es => es
  | _ => []

/-- The members `yyjson_obj_foreach` visits, in order, each a key and a value. -/
def yyjson_val.members : yyjson_val → List (String × yyjson_val)
  | .obj ms => ms
  | _ => []

mutual

/-- The function `JSONArrayContains`. The comparison `yyjson_equals`, a library function
outside the sources at hand, is the parameter `equals`. -/
def JSONArrayContains (equals : yyjson_val → yyjson_val → Bool)
    (haystack needle : yyjson_val) : Bool :=
  needle.elems.attach.all (fun needle_child =>
    JSONContainsRecursive equals haystack needle_child.1)
termination_by 2 * (sizeOf haystack + sizeOf needle)
decreasing_by
  have hlt : sizeOf needle_child.1 < sizeOf needle := by
    have hmem := needle_child.2
    cases needle <;> simp only [yyjson_val.elems, List.not_mem_nil] at hmem
    have := List.sizeOf_lt_of_mem hmem
    simp only [yyjson_val.arr.sizeOf_spec]
    omega
  omega

/-- The function `JSONObjectContains`: the keys of the needle are visited and not used. -/
def JSONObjectContains (equals : yyjson_val → yyjson_val → Bool)
    (haystack needle : yyjson_val) : Bool :=
  needle.members.attach.all (fun member =>
    JSONContainsRecursive equals haystack member.1.2)
termination_by 2 * (sizeOf haystack + sizeOf needle)
decreasing_by
  have hlt : sizeOf member.1.2 < sizeOf needle := by
    have hmem := member.2
    cases needle <;> simp only [yyjson_val.members, List.not_mem_nil] at hmem
    have h1 := List.sizeOf_lt_of_mem hmem
    have h2 : sizeOf member.1 = 1 + sizeOf member.1.1 + sizeOf member.1.2 := by
      cases member.1; rfl
    simp only [yyjson_val.obj.sizeOf_spec]
    omega
  omega

/-- The function `JSONContainsRecursive`. -/
def JSONContainsRecursive (equals : yyjson_val → yyjson_val → Bool)
    (haystack needle : yyjson_val) : Bool :=
  if equals haystack needle then
    true
  else if haystack.is_arr then
    if needle.is_arr && JSONArrayContains equals haystack needle then
      true
    else
      haystack.elems.attach.any (fun child_haystack =>
        JSONContainsRecursive equals child_haystack.1 needle)
  else if haystack.is_obj then
    if needle.is_obj && JSONObjectContains equals haystack needle then
      true
    else
      haystack.members.attach.any (fun member =>
        JSONContainsRecursive equals member.1.2 needle)
  else
    false
termination_by 2 * (sizeOf haystack + sizeOf needle) + 1
decreasing_by
  · omega
  · have hlt : sizeOf child_haystack.1 < sizeOf haystack := by
      have hmem := child_haystack.2
      cases haystack <;> simp only [yyjson_val.elems, List.not_mem_nil] at hmem
      have := List.sizeOf_lt_of_mem hmem
      simp only [yyjson_val.arr.sizeOf_spec]
      omega
    omega
  · omega
  · have hlt : sizeOf member.1.2 < sizeOf haystack := by
      have hmem := member.2
      cases haystack <;> simp only [yyjson_val.members, List.not_mem_nil] at hmem
      have h1 := List.sizeOf_lt_of_mem hmem
      have h2 : sizeOf member.1 = 1 + sizeOf member.1.1 + sizeOf member.1.2 := by
        cases member.1; rfl
      simp only [yyjson_val.obj.sizeOf_spec]
      omega
    omega

end

/-- The function `JSONContains`. -/
def JSONContains (equals : yyjson_val → yyjson_val → Bool) (haystack needle : yyjson_val) :
    Bool :=
  JSONContainsRecursive equals haystack needle

mutual

/-- A comparison to run the functions with: equality of the two trees, scalar by scalar,
element by element and member by member. -/
def treeEquals : yyjson_val → yyjson_val → Bool
  | .null, .null => true
  | .bool a, .bool b => a == b
  | .uint a, .uint b => a == b
  | .sint a, .sint b => a == b
  | .real a, .real b => a == b
  | .str a, .str b => a == b
  | .raw a, .raw b => a == b
  | .arr xs, .arr ys => treeEqualsList xs ys
  | .obj xs, .obj ys => treeEqualsMembers xs ys
  | _, _ => false

/-- The comparison `treeEquals` on the elements of two arrays. -/
def treeEqualsList : List yyjson_val → List yyjson_val → Bool
  | [], [] => true
  | x :: xs, y :: ys => treeEquals x y && treeEqualsList xs ys
  | _, _ => false

/-- The comparison `treeEquals` on the members of two objects. -/
def treeEqualsMembers : List (String × yyjson_val) → List (String × yyjson_val) → Bool
  | [], [] => true
  | (k, x) :: xs, (l, y) :: ys => k == l && treeEquals x y && treeEqualsMembers xs ys
  | _, _ => false

end

/-- The value `c` is an element of the array `v` or the value of a member of the object `v`. -/
def IsChild (c v : yyjson_val) : Prop :=
  c ∈ v.elems ∨ ∃ m ∈ v.members, m.2 = c

/-- The value `x` is `h` itself or occurs inside `h`, at any depth. -/
inductive Nested : yyjson_val → yyjson_val → Prop where
  | refl (h : yyjson_val) : Nested h h
  | step {h c x : yyjson_val} : IsChild c h → Nested c x → Nested h x

/-- A call with the arguments `callee` made from a call with the arguments `caller`, haystack
first: one argument is unchanged and the other is replaced by one of its children. -/
def CallShrinks (callee caller : yyjson_val × yyjson_val) : Prop :=
  (callee.1 = caller.1 ∧ IsChild callee.2 caller.2)
    ∨ (callee.2 = caller.2 ∧ IsChild callee.1 caller.1)

/-- A loop that returns `false` at the first `false`, over calls that may run out of fuel. -/
def allOpt {α : Type} (f : α → Option Bool) : List α → Option Bool
  | [] => some true
  | x :: xs =>
    match f x with
    | none => none
    | some false => some false
    | some true => allOpt f xs

/-- A loop that returns `true` at the first `true`, over calls that may run out of fuel. -/
def anyOpt {α : Type} (f : α → Option Bool) : List α → Option Bool
  | [] => some false
  | x :: xs =>
    match f x with
    | none => none
    | some true => some true
    | some false => anyOpt f xs

mutual

/-- The function `JSONArrayContains` with a bound on the depth of the calls: `none` when the
bound is reached. -/
def JSONArrayContainsFuel (equals : yyjson_val → yyjson_val → Bool) :
    Nat → yyjson_val → yyjson_val → Option Bool
  | 0, _, _ => none
  | fuel + 1, haystack, needle =>
    allOpt (fun needle_child => JSONContainsRecursiveFuel equals fuel haystack needle_child)
      needle.elems

/-- The function `JSONObjectContains` with a bound on the depth of the calls. -/
def JSONObjectContainsFuel (equals : yyjson_val → yyjson_val → Bool) :
    Nat → yyjson_val → yyjson_val → Option Bool
  | 0, _, _ => none
  | fuel + 1, haystack, needle =>
    allOpt (fun member => JSONContainsRecursiveFuel equals fuel haystack member.2)
      needle.members

/-- The function `JSONContainsRecursive` with a bound on the depth of the calls. -/
def JSONContainsRecursiveFuel (equals : yyjson_val → yyjson_val → Bool) :
    Nat → yyjson_val → yyjson_val → Option Bool
  | 0, _, _ => none
  | fuel + 1, haystack, needle =>
    if equals haystack needle then
      some true
    else if haystack.is_arr then
      match (if needle.is_arr then JSONArrayContainsFuel equals fuel haystack needle
             else some false) with
      | none => none
      | some true => some true
      | some false =>
        anyOpt (fun child_haystack =>
          JSONContainsRecursiveFuel equals fuel child_haystack needle) haystack.elems
    else if haystack.is_obj then
      match (if needle.is_obj then JSONObjectContainsFuel equals fuel haystack needle
             else some false) with
      | none => none
      | some true => some true
      | some false =>
        anyOpt (fun member => JSONContainsRecursiveFuel equals fuel member.2 needle)
          haystack.members
    else
      some false

end

/-! ## Memory lemmas -/

theorem toBytesLE_length (w x : Nat) : (toBytesLE w x).length = w := by
  induction w generalizing x with
  | zero => rfl
  | succ n ih => simp [toBytesLE, ih]

theorem toBytesLE_isBytes (w x : Nat) : IsBytes (toBytesLE w x) := by
  induction w generalizing x with
  | zero => intro b hb; simp [toBytesLE] at hb
  | succ n ih =>
    intro b hb
    simp only [toBytesLE, List.mem_cons] at hb
    rcases hb with rfl | hb
    · exact Nat.mod_lt _ (by decide)
    · exact ih _ b hb

theorem toBytesLE_zero (w : Nat) : toBytesLE w 0 = List.replicate w 0 := by
  induction w with
  | zero => rfl
  | succ n ih => simp [toBytesLE, ih, List.replicate_succ]

theorem IsBytes_cons {b : Nat} {bs : List Nat} :
    IsBytes (b :: bs) ↔ b < 256 ∧ IsBytes bs := by
  simp [IsBytes]

theorem IsBytes_append {xs ys : List Nat} :
    IsBytes (xs ++ ys) ↔ IsBytes xs ∧ IsBytes ys := by
  simp only [IsBytes, List.mem_append]
  constructor
  · intro h; exact ⟨fun b hb => h b (Or.inl hb), fun b hb => h b (Or.inr hb)⟩
  · rintro ⟨h1, h2⟩ b (hb | hb)
    · exact h1 b hb
    · exact h2 b hb

theorem IsBytes_reverse {xs : List Nat} : IsBytes xs.reverse ↔ IsBytes xs := by
  simp [IsBytes]

theorem IsBytes_replicate_zero (n : Nat) : IsBytes (List.replicate n 0) := by
  intro b hb
  rw [List.eq_of_mem_replicate hb]; decide

theorem IsBytes_take {xs : List Nat} (h : IsBytes xs) (n : Nat) : IsBytes (xs.take n) :=
  fun b hb => h b (List.mem_of_mem_take hb)

theorem fromBytesLE_lt (bs : List Nat) (h : IsBytes bs) : fromBytesLE bs < 256 ^ bs.length := by
  induction bs with
  | nil => simp [fromBytesLE]
  | cons b t ih =>
    have hb := (IsBytes_cons.1 h).1
    have ht := ih (IsBytes_cons.1 h).2
    simp only [fromBytesLE, List.length_cons, pow_succ]
    omega

theorem toBytesLE_fromBytesLE (bs : List Nat) (h : IsBytes bs) :
    toBytesLE bs.length (fromBytesLE bs) = bs := by
  induction bs with
  | nil => rfl
  | cons b t ih =>
    have hb := (IsBytes_cons.1 h).1
    have ht := ih (IsBytes_cons.1 h).2
    simp only [fromBytesLE, List.length_cons, toBytesLE]
    have h1 : (b + 256 * fromBytesLE t) % 256 = b := by omega
    have h2 : (b + 256 * fromBytesLE t) / 256 = fromBytesLE t := by omega
    rw [h1, h2, ht]

theorem fromBytesLE_toBytesLE (w x : Nat) : fromBytesLE (toBytesLE w x) = x % 256 ^ w := by
  induction w generalizing x with
  | zero => simp [toBytesLE, fromBytesLE, Nat.mod_one]
  | succ n ih =>
    simp only [toBytesLE, fromBytesLE, ih]
    rw [pow_succ, Nat.mul_comm (256 ^ n) 256, Nat.mod_mul]

theorem fromBytesLE_append (xs ys : List Nat) :
    fromBytesLE (xs ++ ys) = fromBytesLE xs + 256 ^ xs.length * fromBytesLE ys := by
  induction xs with
  | nil => simp [fromBytesLE]
  | cons b t ih =>
    show b + 256 * fromBytesLE (t ++ ys)
      = (b + 256 * fromBytesLE t) + 256 ^ (t.length + 1) * fromBytesLE ys
    rw [ih, pow_succ]
    ring

theorem BSwap_fromBytesLE (w : Nat) (bs : List Nat) (h : IsBytes bs) (hw : bs.length = w) :
    BSwap w (fromBytesLE bs) = fromBytesLE bs.reverse := by
  subst hw
  rw [BSwap, toBytesLE_fromBytesLE bs h]

/-! ## The layout the general encoder produces -/

theorem layout_length (w : Nat) (v : List Nat) (hv : v.length < w) :
    (layout w v).length = w := by
  simp only [layout, List.length_append, List.length_replicate, List.length_singleton]
  omega

theorem layout_isBytes (w : Nat) (v : List Nat) (hb : IsBytes v) (hv : v.length < w)
    (hw : w ≤ 256) : IsBytes (layout w v) := by
  unfold layout
  refine IsBytes_append.2 ⟨IsBytes_append.2 ⟨hb, IsBytes_replicate_zero _⟩, ?_⟩
  intro b hb'
  simp only [List.mem_singleton] at hb'
  omega

theorem ofBytes_GetSize (v : List Nat) : (string_t.ofBytes v).GetSize = v.length := by
  unfold string_t.ofBytes string_t.ofData string_t.GetSize
  split <;> rfl

theorem ofBytes_inlined (v : List Nat) (h : v.length ≤ INLINE_LENGTH) :
    (string_t.ofBytes v).inlined = v ++ List.replicate (INLINE_LENGTH - v.length) 0 := by
  unfold string_t.ofBytes string_t.ofData
  rw [if_pos h]
  simp [memcpy]

theorem ofBytes_data (v : List Nat) :
    (string_t.ofBytes v).GetDataUnsafe.take v.length = v := by
  unfold string_t.GetDataUnsafe string_t.IsInlined
  rw [ofBytes_GetSize]
  by_cases h : v.length ≤ INLINE_LENGTH
  · simp only [h, decide_True, if_true]
    rw [ofBytes_inlined v h, List.take_left]
  · simp only [h, decide_False]
    unfold string_t.ofBytes string_t.ofData
    rw [if_neg h]
    simp

theorem ofBytes_GetString (v : List Nat) : (string_t.ofBytes v).GetString = v := by
  unfold string_t.GetString
  rw [ofBytes_GetSize, ofBytes_data]

theorem set_last_layout (w : Nat) (v : List Nat) (hv : v.length < w) (x : Nat) :
    (v ++ List.replicate (w - v.length) 0).set (w - 1) x
      = v ++ List.replicate (w - 1 - v.length) 0 ++ [x] := by
  have h1 : w - v.length = (w - 1 - v.length) + 1 := by omega
  rw [h1, List.replicate_succ', ← List.append_assoc]
  have h2 : (v ++ List.replicate (w - 1 - v.length) 0).length = w - 1 := by
    simp only [List.length_append, List.length_replicate]; omega
  rw [List.set_append_right _ _ (by omega), h2]
  simp

/-- The local `result` of the primary template, just before the byte swap. -/
theorem StringCompressGeneric_ofBytes (w : Nat) (v : List Nat) (hb : IsBytes v)
    (hv : v.length < w) (hw : w ≤ 256) :
    StringCompressGeneric w (string_t.ofBytes v) = .ok (fromBytesLE (layout w v).reverse) := by
  unfold StringCompressGeneric
  rw [ofBytes_GetSize, if_neg (by omega)]
  have hres : (if w ≤ INLINE_LENGTH then memcpy (List.replicate w 0) (string_t.ofBytes v).inlined w
      else memcpy (toBytesLE w 0) (string_t.ofBytes v).GetDataUnsafe v.length)
      = v ++ List.replicate (w - v.length) 0 := by
    by_cases h : w ≤ INLINE_LENGTH
    · rw [if_pos h, ofBytes_inlined v (by omega)]
      unfold memcpy
      rw [List.take_append_eq_append_take, List.take_of_length_le (by omega : v.length ≤ w)]
      simp only [List.take_replicate, List.drop_replicate, Nat.sub_self, List.replicate_zero,
        List.append_nil]
      congr 2
      unfold INLINE_LENGTH at h ⊢
      omega
    · rw [if_neg h]
      unfold memcpy
      rw [ofBytes_data, toBytesLE_zero, List.drop_replicate]
  simp only [hres]
  rw [Nat.mod_eq_of_lt (by omega : v.length < 256), set_last_layout w v hv]
  have := BSwap_fromBytesLE w (layout w v) (layout_isBytes w v hb hv hw) (layout_length w v hv)
  unfold layout at this ⊢
  rw [this]

/-! ## What the general decoder sees -/

/-- The local `input_swapped` holds the bytes of the input most-significant first. -/
theorem input_swapped_eq (w e : Nat) :
    toBytesLE w (BSwap w e) = (toBytesLE w e).reverse := by
  unfold BSwap
  have h := toBytesLE_fromBytesLE (toBytesLE w e).reverse
    (IsBytes_reverse.2 (toBytesLE_isBytes w e))
  rw [List.length_reverse, toBytesLE_length] at h
  exact h

theorem toBytesLE_layout (w : Nat) (v : List Nat) (hb : IsBytes v) (hv : v.length < w)
    (hw : w ≤ 256) :
    (toBytesLE w (fromBytesLE (layout w v).reverse)).reverse = layout w v := by
  have h := toBytesLE_fromBytesLE (layout w v).reverse
    (IsBytes_reverse.2 (layout_isBytes w v hb hv hw))
  rw [List.length_reverse, layout_length w v hv] at h
  rw [h, List.reverse_reverse]

theorem layout_getD_last (w : Nat) (v : List Nat) (hv : v.length < w) :
    (layout w v).getD (w - 1) 0 = v.length := by
  unfold layout
  have h2 : (v ++ List.replicate (w - 1 - v.length) 0).length = w - 1 := by
    simp only [List.length_append, List.length_replicate]; omega
  rw [List.getD_eq_getElem?_getD, List.getElem?_append_right (by omega), h2]
  simp

theorem layout_take (w : Nat) (v : List Nat) : (layout w v).take v.length = v := by
  unfold layout
  rw [List.append_assoc, List.take_left]

/-- The inline path of the primary decoder template, for any input. -/
theorem StringDecompressGeneric_inline (w e : Nat) (ambient : List Nat)
    (hw : w ≤ INLINE_LENGTH) :
    StringDecompressGeneric w e ambient =
      { length := (toBytesLE w e).reverse.getD (w - 1) 0
        inlined := memset (memcpy (ambient.take INLINE_LENGTH) (toBytesLE w e).reverse w)
          (w - 1) 0 (sizeof_string_t - sizeof_uint32_t - w)
        ptr := [] } := by
  unfold StringDecompressGeneric
  simp only [input_swapped_eq, if_pos hw, string_t.ofLen]

/-- The other path of the primary decoder template, for any input. -/
theorem StringDecompressGeneric_heap (w e : Nat) (ambient : List Nat)
    (hw : ¬ w ≤ INLINE_LENGTH) :
    StringDecompressGeneric w e ambient =
      AddString ((toBytesLE w e).reverse ++ ambient) ((toBytesLE w e).reverse.getD (w - 1) 0) := by
  unfold StringDecompressGeneric
  simp only [input_swapped_eq, if_neg hw]

theorem AddString_eq_ofBytes (data : List Nat) (len : Nat) (h : len ≤ data.length) :
    AddString data len = string_t.ofBytes (data.take len) := by
  unfold AddString string_t.ofBytes
  rw [List.length_take, Nat.min_eq_left h]

/-- Decoding the buffer `layout w v` gives back `v`, on both paths. -/
theorem StringDecompressGeneric_layout (w : Nat) (v : List Nat) (ambient : List Nat)
    (hb : IsBytes v) (hv : v.length < w) (hw : w ≤ 256) :
    (StringDecompressGeneric w (fromBytesLE (layout w v).reverse) ambient).GetSize = v.length
    ∧ (StringDecompressGeneric w (fromBytesLE (layout w v).reverse) ambient).GetString = v := by
  by_cases h : w ≤ INLINE_LENGTH
  · rw [StringDecompressGeneric_inline w _ ambient h, toBytesLE_layout w v hb hv hw,
      layout_getD_last w v hv]
    refine ⟨rfl, ?_⟩
    have hl : v.length ≤ INLINE_LENGTH := by omega
    simp only [string_t.GetString, string_t.GetDataUnsafe, string_t.IsInlined,
      string_t.GetSize, hl, decide_True, if_true]
    unfold memset memcpy
    rw [List.append_assoc, List.take_append_of_le_length
      (by rw [List.length_take, List.length_append, List.length_take, layout_length w v hv]
          omega)]
    rw [List.take_take, Nat.min_eq_left (by omega : v.length ≤ w - 1)]
    rw [List.take_append_of_le_length
      (by rw [List.length_take, layout_length w v hv]; omega)]
    rw [List.take_take, Nat.min_eq_left (by omega : v.length ≤ w)]
    exact layout_take w v
  · rw [StringDecompressGeneric_heap w _ ambient h, toBytesLE_layout w v hb hv hw,
      layout_getD_last w v hv]
    rw [AddString_eq_ofBytes _ _
      (by rw [List.length_append, layout_length w v hv]; omega)]
    rw [List.take_append_of_le_length (by rw [layout_length w v hv]; omega), layout_take]
    exact ⟨ofBytes_GetSize v, ofBytes_GetString v⟩

/-! ## Round trip -/

/-- C1. For the result types of 4, 8 and 16 bytes and every byte string `v` shorter than the
type, `StringCompress` succeeds, `StringDecompress` applied to its result gives back a value
of the same length and the same bytes whatever the memory it starts from, and no other byte
string of the domain has the same encoding. -/
theorem StringCompress_round_trip (T : CType)
    (hT : T = .uint32_t ∨ T = .uint64_t ∨ T = .hugeint_t)
    (v : List Nat) (hb : IsBytes v) (hv : v.length < T.sizeof) :
    ∃ e, StringCompress T (string_t.ofBytes v) = .ok e
      ∧ (∀ ambient, (StringDecompress T e ambient).GetSize = v.length
          ∧ (StringDecompress T e ambient).GetString = v)
      ∧ (∀ v2, IsBytes v2 → v2.length < T.sizeof →
          StringCompress T (string_t.ofBytes v2) = .ok e → v2 = v) := by
  have hw : T.sizeof ≤ 256 := by
    rcases hT with rfl | rfl | rfl <;> decide
  have hc : ∀ u, StringCompress T u = StringCompressGeneric T.sizeof u := by
    intro u; rcases hT with rfl | rfl | rfl <;> rfl
  have hd : ∀ e a, StringDecompress T e a = StringDecompressGeneric T.sizeof e a := by
    intro e a; rcases hT with rfl | rfl | rfl <;> rfl
  refine ⟨fromBytesLE (layout T.sizeof v).reverse, ?_, ?_, ?_⟩
  · rw [hc, StringCompressGeneric_ofBytes _ v hb hv hw]
  · intro ambient
    rw [hd]
    exact StringDecompressGeneric_layout _ v ambient hb hv hw
  · intro v2 hb2 hv2 h2
    rw [hc, StringCompressGeneric_ofBytes _ v2 hb2 hv2 hw] at h2
    have e2 : fromBytesLE (layout T.sizeof v2).reverse
        = fromBytesLE (layout T.sizeof v).reverse := by
      injection h2
    have r1 := (StringDecompressGeneric_layout _ v [] hb hv hw).2
    have r2 := (StringDecompressGeneric_layout _ v2 [] hb2 hv2 hw).2
    rw [e2] at r2
    rw [← r2, r1]

/-- C1 at the 8-byte type and the byte string "AB". -/
theorem StringCompress_round_trip_witness :
    ∃ e, StringCompress .uint64_t (string_t.ofBytes [65, 66]) = .ok e
      ∧ (∀ ambient, (StringDecompress .uint64_t e ambient).GetSize = [65, 66].length
          ∧ (StringDecompress .uint64_t e ambient).GetString = [65, 66])
      ∧ (∀ v2, IsBytes v2 → v2.length < CType.uint64_t.sizeof →
          StringCompress .uint64_t (string_t.ofBytes v2) = .ok e → v2 = [65, 66]) :=
  StringCompress_round_trip .uint64_t (Or.inr (Or.inl rfl)) [65, 66] (by decide) (by decide)

/-! ## Order -/

theorem lexLe_refl (v : List Nat) : lexLe v v = true := by
  induction v with
  | nil => rfl
  | cons a t ih => simp [lexLe, ih]

theorem tailPad_length (n k : Nat) (v : List Nat) : (tailPad n k v).length = n + 1 := by
  induction n generalizing k v with
  | zero => rfl
  | succ n ih => cases v <;> simp [tailPad, ih]

theorem tailPad_isBytes (n k : Nat) (v : List Nat) (hb : IsBytes v)
    (hk : k + v.length < 256) (hv : v.length ≤ n) : IsBytes (tailPad n k v) := by
  induction n generalizing k v with
  | zero =>
    intro b hb'
    simp only [tailPad, List.mem_singleton] at hb'
    omega
  | succ n ih =>
    cases v with
    | nil =>
      simp only [tailPad]
      exact IsBytes_cons.2 ⟨by decide, ih k [] hb hk (Nat.zero_le _)⟩
    | cons x xs =>
      simp only [tailPad]
      simp only [List.length_cons] at hk hv
      exact IsBytes_cons.2 ⟨(IsBytes_cons.1 hb).1,
        ih (k + 1) xs (IsBytes_cons.1 hb).2 (by omega) (by omega)⟩

theorem tailPad_eq (n k : Nat) (v : List Nat) (hv : v.length ≤ n) :
    tailPad n k v = v ++ List.replicate (n - v.length) 0 ++ [k + v.length] := by
  induction n generalizing k v with
  | zero =>
    cases v with
    | nil => rfl
    | cons x xs => simp at hv
  | succ n ih =>
    cases v with
    | nil =>
      simp only [tailPad, ih k [] (Nat.zero_le _)]
      simp [List.replicate_succ]
    | cons x xs =>
      simp only [List.length_cons] at hv
      simp only [tailPad, ih (k + 1) xs (by omega), List.length_cons]
      have h1 : n + 1 - (xs.length + 1) = n - xs.length := by omega
      have h2 : k + 1 + xs.length = k + (xs.length + 1) := by omega
      rw [h1, h2]
      simp

theorem layout_eq_tailPad (w : Nat) (v : List Nat) (hv : v.length < w) :
    layout w v = tailPad (w - 1) 0 v := by
  rw [tailPad_eq _ _ _ (by omega), Nat.zero_add]
  rfl

/-- Zero fill is the least continuation. -/
theorem lexLe_zeros_left (n k j : Nat) (ys : List Nat) (hk : k ≤ j) :
    lexLe (tailPad n k []) (tailPad n j ys) = true := by
  induction n generalizing j ys with
  | zero =>
    simp only [tailPad, lexLe, Bool.and_true, Bool.or_eq_true, decide_eq_true_eq, beq_iff_eq]
    omega
  | succ n ih =>
    cases ys with
    | nil => simp [tailPad, lexLe, ih j [] hk]
    | cons y ys =>
      simp only [tailPad, lexLe, Bool.or_eq_true, decide_eq_true_eq, Bool.and_eq_true,
        beq_iff_eq]
      rcases Nat.eq_zero_or_pos y with h | h
      · right; exact ⟨h.symm, ih (j + 1) ys (by omega)⟩
      · left; exact h

/-- A longer value is not below zero fill with a smaller length byte. -/
theorem lexLe_zeros_right (n k j : Nat) (xs : List Nat) (hk : k < j) :
    lexLe (tailPad n j xs) (tailPad n k []) = false := by
  induction n generalizing j xs with
  | zero =>
    simp only [tailPad, lexLe, Bool.and_true, Bool.or_eq_false_iff, decide_eq_false_iff_not,
      beq_eq_false_iff_ne]
    omega
  | succ n ih =>
    cases xs with
    | nil => simp [tailPad, lexLe, ih j [] hk]
    | cons x xs =>
      simp only [tailPad, lexLe, Bool.or_eq_false_iff, decide_eq_false_iff_not,
        Bool.and_eq_false_imp, beq_iff_eq]
      exact ⟨by omega, fun _ => ih (j + 1) xs (by omega)⟩

/-- Padding and appending the length does not change the lexicographic order. -/
theorem lexLe_tailPad (n k : Nat) (v1 v2 : List Nat) (h1 : v1.length ≤ n) (h2 : v2.length ≤ n) :
    lexLe (tailPad n k v1) (tailPad n k v2) = lexLe v1 v2 := by
  induction n generalizing k v1 v2 with
  | zero =>
    cases v1 with
    | nil =>
      cases v2 with
      | nil => simp [tailPad, lexLe]
      | cons y ys => simp at h2
    | cons x xs => simp at h1
  | succ n ih =>
    cases v1 with
    | nil =>
      cases v2 with
      | nil => simp [lexLe, lexLe_refl]
      | cons y ys =>
        rw [lexLe_zeros_left (n + 1) k k (y :: ys) (Nat.le_refl k)]
        rfl
    | cons x xs =>
      cases v2 with
      | nil =>
        have h := lexLe_zeros_right n k (k + 1) xs (Nat.lt_succ_self k)
        simp [tailPad, lexLe, h]
      | cons y ys =>
        simp only [List.length_cons] at h1 h2
        simp only [tailPad, lexLe, ih (k + 1) xs ys (by omega) (by omega)]

/-- On buffers of equal length the big-endian value orders as the bytes do. -/
theorem fromBytesLE_reverse_le (xs ys : List Nat) (hx : IsBytes xs) (hy : IsBytes ys)
    (hl : xs.length = ys.length) :
    fromBytesLE xs.reverse ≤ fromBytesLE ys.reverse ↔ lexLe xs ys = true := by
  induction xs generalizing ys with
  | nil =>
    cases ys with
    | nil => simp [lexLe]
    | cons y ys => simp at hl
  | cons x xs ih =>
    cases ys with
    | nil => simp at hl
    | cons y ys =>
      simp only [List.length_cons, Nat.add_right_cancel_iff] at hl
      have hX := fromBytesLE_lt xs.reverse (IsBytes_reverse.2 (IsBytes_cons.1 hx).2)
      have hY := fromBytesLE_lt ys.reverse (IsBytes_reverse.2 (IsBytes_cons.1 hy).2)
      rw [List.length_reverse] at hX hY
      rw [← hl] at hY
      have ih2 := ih ys (IsBytes_cons.1 hx).2 (IsBytes_cons.1 hy).2 hl
      simp only [List.reverse_cons, fromBytesLE_append, List.length_reverse, fromBytesLE,
        Nat.mul_zero, Nat.add_zero, lexLe, Bool.or_eq_true, decide_eq_true_eq,
        Bool.and_eq_true, beq_iff_eq, ← hl]
      rw [← ih2]
      generalize fromBytesLE xs.reverse = X at hX ⊢
      generalize fromBytesLE ys.reverse = Y at hY ⊢
      generalize 256 ^ xs.length = P at hX hY ⊢
      constructor
      · intro h
        rcases Nat.lt_trichotomy x y with hxy | hxy | hxy
        · left; exact hxy
        · right; subst hxy; exact ⟨rfl, by omega⟩
        · exfalso
          have : P * (y + 1) ≤ P * x := Nat.mul_le_mul_left P hxy
          rw [Nat.mul_succ] at this
          omega
      · rintro (hxy | ⟨rfl, h⟩)
        · have : P * (x + 1) ≤ P * y := Nat.mul_le_mul_left P hxy
          rw [Nat.mul_succ] at this
          omega
        · omega

/-- The general encoder is monotone in both directions, for any width up to 256 bytes. -/
theorem layout_order (w : Nat) (v1 v2 : List Nat) (hb1 : IsBytes v1) (hb2 : IsBytes v2)
    (h1 : v1.length < w) (h2 : v2.length < w) (hw : w ≤ 256) :
    lexLe v1 v2 = true ↔
      fromBytesLE (layout w v1).reverse ≤ fromBytesLE (layout w v2).reverse := by
  rw [fromBytesLE_reverse_le _ _ (layout_isBytes w v1 hb1 h1 hw) (layout_isBytes w v2 hb2 h2 hw)
    (by rw [layout_length w v1 h1, layout_length w v2 h2])]
  rw [layout_eq_tailPad w v1 h1, layout_eq_tailPad w v2 h2,
    lexLe_tailPad _ _ _ _ (by omega) (by omega)]

/-- C2. For the result types of 4 and 8 bytes and byte strings `v1`, `v2` shorter than the type
(any byte values, zero bytes included), `v1 ≤ v2` in lexicographic byte order exactly when the
encoding of `v1` is at most the encoding of `v2` as unsigned integers, and `v1 < v2` exactly
when the encoding of `v1` is below that of `v2`. -/
theorem StringCompress_order_preserving (T : CType) (hT : T = .uint32_t ∨ T = .uint64_t)
    (v1 v2 : List Nat) (hb1 : IsBytes v1) (hb2 : IsBytes v2)
    (h1 : v1.length < T.sizeof) (h2 : v2.length < T.sizeof) :
    ∃ e1 e2, StringCompress T (string_t.ofBytes v1) = .ok e1
      ∧ StringCompress T (string_t.ofBytes v2) = .ok e2
      ∧ (lexLe v1 v2 = true ↔ e1 ≤ e2)
      ∧ (lexLt v1 v2 = true ↔ e1 < e2) := by
  have hw : T.sizeof ≤ 256 := by
    rcases hT with rfl | rfl <;> decide
  have hc : ∀ u, StringCompress T u = StringCompressGeneric T.sizeof u := by
    intro u; rcases hT with rfl | rfl <;> rfl
  refine ⟨_, _, ?_, ?_, layout_order T.sizeof v1 v2 hb1 hb2 h1 h2 hw, ?_⟩
  · rw [hc, StringCompressGeneric_ofBytes _ v1 hb1 h1 hw]
  · rw [hc, StringCompressGeneric_ofBytes _ v2 hb2 h2 hw]
  · have h := layout_order T.sizeof v2 v1 hb2 hb1 h2 h1 hw
    unfold lexLt
    cases hle : lexLe v2 v1
    · simp only [Bool.not_false, true_iff]
      by_contra hc2
      have := h.2 (by omega)
      rw [hle] at this
      exact Bool.noConfusion this
    · simp only [Bool.not_true, Bool.false_eq_true, false_iff]
      have := h.1 hle
      omega

/-- C2 at the 8-byte type for "AB" and "ABC". -/
theorem StringCompress_order_preserving_witness :
    ∃ e1 e2, StringCompress .uint64_t (string_t.ofBytes [65, 66]) = .ok e1
      ∧ StringCompress .uint64_t (string_t.ofBytes [65, 66, 67]) = .ok e2
      ∧ (lexLe [65, 66] [65, 66, 67] = true ↔ e1 ≤ e2)
      ∧ (lexLt [65, 66] [65, 66, 67] = true ↔ e1 < e2) :=
  StringCompress_order_preserving .uint64_t (Or.inr rfl) [65, 66] [65, 66, 67]
    (by decide) (by decide) (by decide) (by decide)

/-- The 16-byte encoding compared as a bit pattern is monotone in both directions. -/
theorem StringCompress_hugeint_bits_order (v1 v2 : List Nat) (hb1 : IsBytes v1)
    (hb2 : IsBytes v2) (h1 : v1.length < 16) (h2 : v2.length < 16) :
    ∃ e1 e2, StringCompress .hugeint_t (string_t.ofBytes v1) = .ok e1
      ∧ StringCompress .hugeint_t (string_t.ofBytes v2) = .ok e2
      ∧ (lexLe v1 v2 = true ↔ e1 ≤ e2) := by
  refine ⟨_, _, ?_, ?_, layout_order 16 v1 v2 hb1 hb2 h1 h2 (by decide)⟩
  · exact StringCompressGeneric_ofBytes 16 v1 hb1 h1 (by decide)
  · exact StringCompressGeneric_ofBytes 16 v2 hb2 h2 (by decide)

/-- C3. At the 16-byte type the result is a `hugeint_t`, whose comparison is signed: the
one-byte strings `[0x7F]` and `[0x80]` are in lexicographic order, their encodings are
`0x7F00…01` and `0x8000…01`, and as `hugeint_t` the first is not at most the second, whose
high half is negative. -/
theorem StringCompress_hugeint_order_fails :
    lexLe [0x7F] [0x80] = true
      ∧ StringCompress .hugeint_t (string_t.ofBytes [0x7F]) = .ok (0x7F * 2 ^ 120 + 1)
      ∧ StringCompress .hugeint_t (string_t.ofBytes [0x80]) = .ok (0x80 * 2 ^ 120 + 1)
      ∧ hugeint_t.le (hugeint_t.ofBits (0x7F * 2 ^ 120 + 1))
          (hugeint_t.ofBits (0x80 * 2 ^ 120 + 1)) = false
      ∧ (hugeint_t.ofBits (0x80 * 2 ^ 120 + 1)).upper = -2 ^ 63 := by
  refine ⟨by decide, ?_, ?_, by decide, by decide⟩
  · rw [show StringCompress .hugeint_t (string_t.ofBytes [0x7F])
        = StringCompressGeneric 16 (string_t.ofBytes [0x7F]) from rfl,
      StringCompressGeneric_ofBytes 16 [0x7F] (by decide) (by decide) (by decide)]
    exact congrArg Except.ok (by decide)
  · rw [show StringCompress .hugeint_t (string_t.ofBytes [0x80])
        = StringCompressGeneric 16 (string_t.ofBytes [0x80]) from rfl,
      StringCompressGeneric_ofBytes 16 [0x80] (by decide) (by decide) (by decide)]
    exact congrArg Except.ok (by decide)

/-! ## Oversize values -/

/-- C4. For the result types of 4, 8 and 16 bytes and every byte string `v`, `StringCompress`
throws the invalid-input exception exactly when `v` is at least as long as the type, and
returns a value exactly when `v` is shorter. -/
theorem StringCompress_oversize_iff (T : CType)
    (hT : T = .uint32_t ∨ T = .uint64_t ∨ T = .hugeint_t) (v : List Nat) :
    (StringCompress T (string_t.ofBytes v)
        = .error (.InvalidInputException v.length T.sizeof) ↔ T.sizeof ≤ v.length)
      ∧ ((∃ e, StringCompress T (string_t.ofBytes v) = .ok e) ↔ v.length < T.sizeof) := by
  have hc : StringCompress T (string_t.ofBytes v)
      = StringCompressGeneric T.sizeof (string_t.ofBytes v) := by
    rcases hT with rfl | rfl | rfl <;> rfl
  rw [hc]
  unfold StringCompressGeneric
  rw [ofBytes_GetSize]
  by_cases h : T.sizeof ≤ v.length
  · rw [if_pos h]
    refine ⟨⟨fun _ => h, fun _ => rfl⟩, ⟨?_, fun h2 => absurd h2 (by omega)⟩⟩
    rintro ⟨e, he⟩
    exact Except.noConfusion he
  · rw [if_neg h]
    refine ⟨⟨fun h2 => Except.noConfusion h2, fun h2 => absurd h2 h⟩,
      ⟨fun _ => by omega, fun _ => ⟨_, rfl⟩⟩⟩

/-- C4 at the 4-byte type: "WXYZ" is rejected and "WXY" is encoded. -/
theorem StringCompress_oversize_iff_witness :
    StringCompress .uint32_t (string_t.ofBytes [87, 88, 89, 90])
        = .error (.InvalidInputException 4 4)
      ∧ ∃ e, StringCompress .uint32_t (string_t.ofBytes [87, 88, 89]) = .ok e :=
  ⟨(StringCompress_oversize_iff .uint32_t (Or.inl rfl) [87, 88, 89, 90]).1.2 (by decide),
   (StringCompress_oversize_iff .uint32_t (Or.inl rfl) [87, 88, 89]).2.2 (by decide)⟩

/-! ## The 2-byte codec -/

theorem StringCompress_uint16_nil :
    StringCompress .uint16_t (string_t.ofBytes []) = .ok 0 := by
  decide

theorem StringCompress_uint16_single (b : Nat) (hb : b < 256) :
    StringCompress .uint16_t (string_t.ofBytes [b]) = .ok (1 + b) := by
  have h : (1 + b) % 2 ^ 16 = 1 + b := Nat.mod_eq_of_lt (by omega)
  simp [StringCompress, StringCompress_uint16_t, string_t.ofBytes, string_t.ofData,
    string_t.GetSize, INLINE_LENGTH, CType.sizeof, memcpy]
  omega

theorem StringDecompress_uint16_zero (ambient : List Nat) :
    (StringDecompress .uint16_t 0 ambient).GetSize = 0
      ∧ (StringDecompress .uint16_t 0 ambient).GetString = [] := by
  simp [StringDecompress, StringDecompress_uint16_t, string_t.ofLen, string_t.GetSize,
    string_t.GetString]

theorem StringDecompress_uint16_succ (b : Nat) (hb : b < 256) (ambient : List Nat) :
    (StringDecompress .uint16_t (1 + b) ambient).GetSize = 1
      ∧ (StringDecompress .uint16_t (1 + b) ambient).GetString = [b] := by
  have h1 : 1 + b ≠ 0 := by omega
  have h2 : (1 + b - 1) % 256 = b := by
    rw [Nat.add_sub_cancel_left]; exact Nat.mod_eq_of_lt hb
  simp only [StringDecompress, StringDecompress_uint16_t, if_neg h1, h2]
  simp [string_t.ofData, string_t.GetSize, string_t.GetString, string_t.GetDataUnsafe,
    string_t.IsInlined, INLINE_LENGTH, CType.sizeof, memcpy]

/-- C5. For every byte string `v` of length 0 or 1 (any byte value), the 2-byte encoder
returns a value from which the 2-byte decoder gives back `v`, same length and same bytes; in
particular `0` decodes to the empty value and `1 + b` to the single byte `b`. -/
theorem StringCompress_uint16_round_trip (v : List Nat) (hb : IsBytes v) (hv : v.length ≤ 1) :
    (∃ e, StringCompress .uint16_t (string_t.ofBytes v) = .ok e
      ∧ ∀ ambient, (StringDecompress .uint16_t e ambient).GetSize = v.length
          ∧ (StringDecompress .uint16_t e ambient).GetString = v)
      ∧ (∀ ambient, (StringDecompress .uint16_t 0 ambient).GetString = [])
      ∧ (∀ b, b < 256 → ∀ ambient, (StringDecompress .uint16_t (1 + b) ambient).GetString = [b]) := by
  refine ⟨?_, fun a => (StringDecompress_uint16_zero a).2,
    fun b hb a => (StringDecompress_uint16_succ b hb a).2⟩
  match v, hb, hv with
  | [], _, _ => exact ⟨0, StringCompress_uint16_nil, fun a => StringDecompress_uint16_zero a⟩
  | [b], hb, _ =>
    have hb' : b < 256 := hb b (List.mem_singleton.2 rfl)
    exact ⟨1 + b, StringCompress_uint16_single b hb', fun a => StringDecompress_uint16_succ b hb' a⟩
  | _ :: _ :: _, _, hv => simp at hv

/-- C5 at the single byte `0xFF`. -/
theorem StringCompress_uint16_round_trip_witness :
    (∃ e, StringCompress .uint16_t (string_t.ofBytes [255]) = .ok e
      ∧ ∀ ambient, (StringDecompress .uint16_t e ambient).GetSize = [255].length
          ∧ (StringDecompress .uint16_t e ambient).GetString = [255])
      ∧ (∀ ambient, (StringDecompress .uint16_t 0 ambient).GetString = [])
      ∧ (∀ b, b < 256 → ∀ ambient, (StringDecompress .uint16_t (1 + b) ambient).GetString = [b]) :=
  StringCompress_uint16_round_trip [255] (by decide) (by decide)

/-- C6. For every byte string `v` of length 0 or 1, built with zeroed inline storage, the
2-byte encoder returns `length v + firstByte v`, a sum that stays below `2 ^ 16`; so the empty
value encodes to `0` and the single byte `b` to `1 + b`. -/
theorem StringCompress_uint16_value (v : List Nat) (hb : IsBytes v) (hv : v.length ≤ 1) :
    StringCompress .uint16_t (string_t.ofBytes v) = .ok (v.length + firstByte v)
      ∧ v.length + firstByte v < 2 ^ 16
      ∧ StringCompress .uint16_t (string_t.ofBytes []) = .ok 0
      ∧ (∀ b, b < 256 → StringCompress .uint16_t (string_t.ofBytes [b]) = .ok (1 + b)) := by
  refine ⟨?_, ?_, StringCompress_uint16_nil, StringCompress_uint16_single⟩
  · match v, hb, hv with
    | [], _, _ => exact StringCompress_uint16_nil
    | [b], hb, _ =>
      exact StringCompress_uint16_single b (hb b (List.mem_singleton.2 rfl))
    | _ :: _ :: _, _, hv => simp at hv
  · match v, hb, hv with
    | [], _, _ => decide
    | [b], hb, _ =>
      have hb' : b < 256 := hb b (List.mem_singleton.2 rfl)
      simp only [List.length_singleton, firstByte, List.headD_cons]
      omega
    | _ :: _ :: _, _, hv => simp at hv

/-- C6 at the single byte `0xFF`, encoded to 256. -/
theorem StringCompress_uint16_value_witness :
    StringCompress .uint16_t (string_t.ofBytes [255]) = .ok ([255].length + firstByte [255])
      ∧ [255].length + firstByte [255] < 2 ^ 16
      ∧ StringCompress .uint16_t (string_t.ofBytes []) = .ok 0
      ∧ (∀ b, b < 256 → StringCompress .uint16_t (string_t.ofBytes [b]) = .ok (1 + b)) :=
  StringCompress_uint16_value [255] (by decide) (by decide)

/-- C7. The 2-byte encoder has no size test: it returns a value for every input, and for the
two-byte string "AB" it returns 67, which is also the encoding of "B"; the primary template,
at the 4-byte type, throws for a value of the length of the type. -/
theorem StringCompress_uint16_never_throws :
    (∀ input : string_t, ∃ e, StringCompress .uint16_t input = .ok e)
      ∧ StringCompress .uint16_t (string_t.ofBytes [65, 66]) = .ok 67
      ∧ StringCompress .uint16_t (string_t.ofBytes [66]) = .ok 67
      ∧ StringCompress .uint32_t (string_t.ofBytes [65, 66, 67, 68])
          = .error (.InvalidInputException 4 4) := by
  refine ⟨fun input => ⟨_, rfl⟩, by decide, by decide, by decide⟩

/-! ## The 1-byte codec -/

/-- C8. For every byte string `v` the 1-byte encoder returns `0` when `v` is empty and throws
the invalid-input exception otherwise; it returns no other value. -/
theorem StringCompress_uint8 (v : List Nat) :
    StringCompress .uint8_t (string_t.ofBytes v)
      = if v.length = 0 then .ok 0 else .error (.InvalidInputException v.length 1) := by
  show StringCompressGeneric 1 (string_t.ofBytes v) = _
  unfold StringCompressGeneric
  rw [ofBytes_GetSize]
  cases v with
  | nil => decide
  | cons x xs =>
    rw [if_pos (by simp), if_neg (by simp)]

/-- C9. No decoder exists for the 1-byte type although an encoder does: the decoder switch
throws the internal exception for `UTINYINT`, so decoding at that width fails for every input;
and the primary decoder template at the 1-byte type returns a value of declared length `e`,
empty only for `e = 0`. -/
theorem StringDecompress_uint8_missing :
    GetStringCompressFunctionSwitch .UTINYINT = .ok .uint8_t
      ∧ GetStringDecompressFunctionSwitch .UTINYINT = .error .InternalException
      ∧ (∀ e ambient, CMStringDecompress .UTINYINT e ambient = .error .InternalException)
      ∧ (∀ e ambient, (StringDecompress .uint8_t e ambient).GetSize = e % 256)
      ∧ (StringDecompress .uint8_t 1 []).GetString = [0] := by
  refine ⟨rfl, rfl, fun _ _ => rfl, ?_, by decide⟩
  intro e ambient
  show (StringDecompressGeneric 1 e ambient).GetSize = e % 256
  rw [StringDecompressGeneric_inline 1 e ambient (by decide)]
  simp [string_t.GetSize, toBytesLE]

/-! ## The general decoder on arbitrary input -/

theorem toBytesLE_eq_map (w e : Nat) :
    toBytesLE w e = (List.range w).map (fun i => e / 256 ^ i % 256) := by
  induction w generalizing e with
  | zero => rfl
  | succ n ih =>
    rw [toBytesLE, ih, List.range_succ_eq_map, List.map_cons, List.map_map]
    congr 1
    · simp
    · apply List.map_congr_left
      intro i _
      simp only [Function.comp, pow_succ]
      rw [Nat.div_div_eq_div_mul, Nat.mul_comm]

theorem toBytesLE_reverse (w e : Nat) : (toBytesLE w e).reverse = bytesBE w e := by
  rw [toBytesLE_eq_map, bytesBE, List.map_reverse]

theorem bytesBE_length (w e : Nat) : (bytesBE w e).length = w := by
  simp [bytesBE]

theorem bytesBE_last (w e : Nat) (hw : 1 ≤ w) : (bytesBE w e).getD (w - 1) 0 = e % 256 := by
  obtain ⟨n, rfl⟩ : ∃ n, w = n + 1 := ⟨w - 1, by omega⟩
  rw [← toBytesLE_reverse, toBytesLE, List.reverse_cons, List.getD_eq_getElem?_getD,
    List.getElem?_append_right (by simp [toBytesLE_length])]
  simp [toBytesLE_length]

theorem ofData_GetSize (data : List Nat) (len : Nat) : (string_t.ofData data len).GetSize = len := by
  unfold string_t.ofData string_t.GetSize
  split <;> rfl

theorem inline_take (buf ambient : List Nat) (w n len : Nat) (hbuf : buf.length = w)
    (hlen : len ≤ w - 1) :
    (memset (memcpy ambient buf w) (w - 1) 0 n).take len = buf.take len := by
  unfold memset memcpy
  rw [List.append_assoc, List.take_append_of_le_length
    (by rw [List.length_take, List.length_append, List.length_take, hbuf]; omega)]
  rw [List.take_take, Nat.min_eq_left hlen]
  rw [List.take_append_of_le_length (by rw [List.length_take, hbuf]; omega)]
  rw [List.take_take, Nat.min_eq_left (by omega : len ≤ w)]

/-- The primary decoder template on any input: the declared length is the low byte, and when
that byte does not exceed the content capacity the bytes are the leading content bytes. -/
theorem StringDecompressGeneric_any (w e : Nat) (ambient : List Nat) (hw : 1 ≤ w) :
    (StringDecompressGeneric w e ambient).GetSize = e % 256
      ∧ (e % 256 ≤ w - 1 →
          (StringDecompressGeneric w e ambient).GetString
            = (contentBytes w e).take (e % 256)) := by
  have hc : (contentBytes w e).take (e % 256) = (bytesBE w e).take (min (e % 256) (w - 1)) := by
    rw [contentBytes, List.take_take]
  by_cases h : w ≤ INLINE_LENGTH
  · rw [StringDecompressGeneric_inline w e ambient h, toBytesLE_reverse, bytesBE_last w e hw]
    refine ⟨rfl, fun hL => ?_⟩
    have hl : e % 256 ≤ INLINE_LENGTH := by omega
    simp only [string_t.GetString, string_t.GetDataUnsafe, string_t.IsInlined,
      string_t.GetSize, hl, decide_True, if_true]
    rw [inline_take _ _ w _ _ (bytesBE_length w e) hL, hc, Nat.min_eq_left hL]
  · rw [StringDecompressGeneric_heap w e ambient h, toBytesLE_reverse, bytesBE_last w e hw]
    refine ⟨ofData_GetSize _ _, fun hL => ?_⟩
    rw [AddString_eq_ofBytes _ _ (by rw [List.length_append, bytesBE_length]; omega),
      ofBytes_GetString,
      List.take_append_of_le_length (by rw [bytesBE_length]; omega), hc, Nat.min_eq_left hL]

/-- C10, as the code has it. For the types of 4, 8 and 16 bytes, every input `e` and whatever
the memory it starts from, `StringDecompress` returns a value (it has no error path) whose
declared length is the lowest-order byte `L` of `e`; when `L` is at most the `w - 1` content
bytes, its bytes are the first `L` of the `w - 1` high-order bytes of `e`, most significant
first. -/
theorem StringDecompress_total (T : CType)
    (hT : T = .uint32_t ∨ T = .uint64_t ∨ T = .hugeint_t) (e : Nat) (ambient : List Nat) :
    (StringDecompress T e ambient).GetSize = e % 256
      ∧ (e % 256 ≤ T.sizeof - 1 →
          (StringDecompress T e ambient).GetString
            = (contentBytes T.sizeof e).take (e % 256)) := by
  have hd : StringDecompress T e ambient = StringDecompressGeneric T.sizeof e ambient := by
    rcases hT with rfl | rfl | rfl <;> rfl
  rw [hd]
  exact StringDecompressGeneric_any T.sizeof e ambient (by rcases hT with rfl | rfl | rfl <;> decide)

/-- C10 at the 8-byte type and the encoding of "AB". -/
theorem StringDecompress_total_witness :
    (StringDecompress .uint64_t 0x4142000000000002 []).GetSize = 2
      ∧ (StringDecompress .uint64_t 0x4142000000000002 []).GetString = [0x41, 0x42] :=
  ⟨(StringDecompress_total .uint64_t (Or.inr (Or.inl rfl)) 0x4142000000000002 []).1,
   (StringDecompress_total .uint64_t (Or.inr (Or.inl rfl)) 0x4142000000000002 []).2
     (by decide)⟩

/-- C10 as stated fails: at the 4-byte type the input `0x41424304` has low byte 4, one more than
the three content bytes; the decoder returns the four bytes `41 42 43 00`, which are not the
first four of the three high-order bytes. -/
theorem StringDecompress_length_beyond_content :
    (StringDecompress .uint32_t 0x41424304 (List.replicate 12 0xAA)).GetSize = 4
      ∧ (StringDecompress .uint32_t 0x41424304 (List.replicate 12 0xAA)).GetString
          = [0x41, 0x42, 0x43, 0]
      ∧ (contentBytes 4 0x41424304).take (0x41424304 % 256) = [0x41, 0x42, 0x43]
      ∧ (StringDecompress .uint32_t 0x41424304 (List.replicate 12 0xAA)).GetString
          ≠ (contentBytes 4 0x41424304).take (0x41424304 % 256) := by
  decide

/-! ## The switches -/

/-- C11. `GetStringCompressFunctionSwitch` returns an encoder exactly for `UTINYINT`,
`USMALLINT`, `UINTEGER`, `UBIGINT` and `HUGEINT`, throws the internal exception for every other
type id, and the encoder of each of the five is the instantiation of 1, 2, 4, 8 and 16 bytes. -/
theorem GetStringCompressFunctionSwitch_supported :
    (∀ id, (∃ T, GetStringCompressFunctionSwitch id = .ok T) ↔ id ∈ supportedTypes)
      ∧ (∀ id, GetStringCompressFunctionSwitch id = .error .InternalException
          ↔ id ∉ supportedTypes)
      ∧ GetStringCompressFunctionSwitch .UTINYINT = .ok .uint8_t
      ∧ GetStringCompressFunctionSwitch .USMALLINT = .ok .uint16_t
      ∧ GetStringCompressFunctionSwitch .UINTEGER = .ok .uint32_t
      ∧ GetStringCompressFunctionSwitch .UBIGINT = .ok .uint64_t
      ∧ GetStringCompressFunctionSwitch .HUGEINT = .ok .hugeint_t
      ∧ [CType.uint8_t, .uint16_t, .uint32_t, .uint64_t, .hugeint_t].map CType.sizeof
          = [1, 2, 4, 8, 16]
      ∧ (∀ input, CMStringCompress .UTINYINT input = StringCompress .uint8_t input)
      ∧ (∀ input, CMStringCompress .USMALLINT input = StringCompress .uint16_t input)
      ∧ (∀ input, CMStringCompress .UINTEGER input = StringCompress .uint32_t input)
      ∧ (∀ input, CMStringCompress .UBIGINT input = StringCompress .uint64_t input)
      ∧ (∀ input, CMStringCompress .HUGEINT input = StringCompress .hugeint_t input) := by
  refine ⟨?_, ?_, rfl, rfl, rfl, rfl, rfl, rfl, fun _ => rfl, fun _ => rfl, fun _ => rfl,
    fun _ => rfl, fun _ => rfl⟩
  · intro id
    cases id <;> simp [GetStringCompressFunctionSwitch, supportedTypes]
  · intro id
    cases id <;> simp [GetStringCompressFunctionSwitch, supportedTypes]

/-- C12. The decoder switch has a case for `USMALLINT`, `UINTEGER`, `UBIGINT` and `HUGEINT`
only: for `UTINYINT`, the fifth type the encoder switch accepts, it throws the internal
exception, as for every type id outside those four. -/
theorem GetStringDecompressFunctionSwitch_lacks_UTINYINT :
    GetStringDecompressFunctionSwitch .UTINYINT = .error .InternalException
      ∧ GetStringCompressFunctionSwitch .UTINYINT = .ok .uint8_t
      ∧ GetStringDecompressFunctionSwitch .USMALLINT = .ok .uint16_t
      ∧ GetStringDecompressFunctionSwitch .UINTEGER = .ok .uint32_t
      ∧ GetStringDecompressFunctionSwitch .UBIGINT = .ok .uint64_t
      ∧ GetStringDecompressFunctionSwitch .HUGEINT = .ok .hugeint_t
      ∧ (∀ id, (∃ T, GetStringDecompressFunctionSwitch id = .ok T)
          ↔ id ∈ [LogicalTypeId.USMALLINT, .UINTEGER, .UBIGINT, .HUGEINT]) := by
  refine ⟨rfl, rfl, rfl, rfl, rfl, rfl, ?_⟩
  intro id
  cases id <;> simp [GetStringDecompressFunctionSwitch]

/-! ## The value of the general encoding -/

theorem fromBytesLE_reverse_cons (x : Nat) (xs : List Nat) :
    fromBytesLE (x :: xs).reverse = x * 256 ^ xs.length + fromBytesLE xs.reverse := by
  rw [List.reverse_cons, fromBytesLE_append, List.length_reverse]
  simp only [fromBytesLE]
  ring

theorem weightedSum_nil (w : Nat) : weightedSum w [] = 0 := rfl

theorem weightedSum_cons (w x : Nat) (xs : List Nat) :
    weightedSum (w + 1) (x :: xs) = x * 256 ^ w + weightedSum w xs := by
  unfold weightedSum
  rw [List.length_cons, List.range_succ_eq_map, List.map_cons, List.sum_cons, List.map_map]
  congr 1
  congr 1
  apply List.map_congr_left
  intro i _
  simp only [Function.comp, List.getD_cons_succ]
  congr 2
  omega

/-- The value of the buffer `v ++ zeros ++ [k + length v]`. -/
theorem fromBytesLE_tailPad (n k : Nat) (v : List Nat) (hv : v.length ≤ n) :
    fromBytesLE (tailPad n k v).reverse = weightedSum (n + 1) v + (k + v.length) := by
  induction n generalizing k v with
  | zero =>
    cases v with
    | nil => simp [tailPad, fromBytesLE, weightedSum_nil]
    | cons x xs => simp at hv
  | succ n ih =>
    cases v with
    | nil =>
      rw [tailPad, fromBytesLE_reverse_cons, ih k [] (Nat.zero_le _)]
      simp [weightedSum_nil]
    | cons x xs =>
      simp only [List.length_cons] at hv
      rw [tailPad, fromBytesLE_reverse_cons, ih (k + 1) xs (by omega), tailPad_length,
        weightedSum_cons, List.length_cons]
      omega

theorem fromBytesLE_layout (w : Nat) (v : List Nat) (hv : v.length < w) :
    fromBytesLE (layout w v).reverse = encodedValue w v := by
  rw [layout_eq_tailPad w v hv, fromBytesLE_tailPad _ _ _ (by omega), Nat.zero_add,
    Nat.sub_add_cancel (by omega : 1 ≤ w)]
  rfl

/-- C14. For the types of 4, 8 and 16 bytes and every byte string `v` shorter than the type,
built with zeroed inline storage, `StringCompress` returns the sum of `v[i] * 256 ^ (w - 1 - i)`
over the bytes of `v`, plus the length of `v`: the content left-aligned in the high-order
bytes, zero fill, the length in the lowest-order byte, on the inline path and on the other. -/
theorem StringCompress_value (T : CType)
    (hT : T = .uint32_t ∨ T = .uint64_t ∨ T = .hugeint_t)
    (v : List Nat) (hb : IsBytes v) (hv : v.length < T.sizeof) :
    StringCompress T (string_t.ofBytes v) = .ok (encodedValue T.sizeof v)
      ∧ bytesBE T.sizeof (encodedValue T.sizeof v)
          = v ++ List.replicate (T.sizeof - 1 - v.length) 0 ++ [v.length] := by
  have hw : T.sizeof ≤ 256 := by
    rcases hT with rfl | rfl | rfl <;> decide
  have hc : ∀ u, StringCompress T u = StringCompressGeneric T.sizeof u := by
    intro u; rcases hT with rfl | rfl | rfl <;> rfl
  constructor
  · rw [hc, StringCompressGeneric_ofBytes _ v hb hv hw, fromBytesLE_layout _ v hv]
  · rw [← fromBytesLE_layout _ v hv, ← toBytesLE_reverse, toBytesLE_layout _ v hb hv hw]
    rfl

/-- C14 at the 16-byte type and a value of 13 bytes, stored out of line. -/
theorem StringCompress_value_witness :
    StringCompress .hugeint_t (string_t.ofBytes [1, 2, 3, 4, 5, 6, 7, 8, 9, 10, 11, 12, 13])
        = .ok (encodedValue 16 [1, 2, 3, 4, 5, 6, 7, 8, 9, 10, 11, 12, 13])
      ∧ bytesBE 16 (encodedValue 16 [1, 2, 3, 4, 5, 6, 7, 8, 9, 10, 11, 12, 13])
          = [1, 2, 3, 4, 5, 6, 7, 8, 9, 10, 11, 12, 13] ++ List.replicate (16 - 1 - 13) 0 ++ [13] :=
  StringCompress_value .hugeint_t (Or.inr (Or.inr rfl))
    [1, 2, 3, 4, 5, 6, 7, 8, 9, 10, 11, 12, 13] (by decide) (by decide)

/-! ## The length byte -/

theorem bytesBE_layout (w : Nat) (v : List Nat) (hb : IsBytes v) (hv : v.length < w)
    (hw : w ≤ 256) : bytesBE w (fromBytesLE (layout w v).reverse) = layout w v := by
  rw [← toBytesLE_reverse, toBytesLE_layout w v hb hv hw]

/-- The lowest-order byte of an encoding is the length of the value. -/
theorem fromBytesLE_layout_mod (w : Nat) (v : List Nat) (hb : IsBytes v) (hv : v.length < w)
    (hw : w ≤ 256) : fromBytesLE (layout w v).reverse % 256 = v.length := by
  rw [← bytesBE_last w _ (by omega), bytesBE_layout w v hb hv hw, layout_getD_last w v hv]

/-- What the primary encoder template returns for a byte string has the length in its
lowest-order byte, a number below the width. -/
theorem StringCompressGeneric_mod (w e : Nat) (v : List Nat) (hb : IsBytes v) (hw : w ≤ 256)
    (h : StringCompressGeneric w (string_t.ofBytes v) = .ok e) : e % 256 < w := by
  by_cases hv : v.length < w
  · rw [StringCompressGeneric_ofBytes w v hb hv hw] at h
    injection h with h
    rw [← h, fromBytesLE_layout_mod w v hb hv hw]
    exact hv
  · unfold StringCompressGeneric at h
    rw [ofBytes_GetSize, if_pos (by omega)] at h
    exact Except.noConfusion h

/-- C15. For the types of 4, 8 and 16 bytes, the declared length of the value
`StringDecompress` returns is the lowest-order byte of the input, whatever it is: for the input
`0xFF` it is 255, beyond the `w - 1` content bytes, and `0xFF`, like every input whose low byte
is not below `w`, is not an encoding of any byte string. -/
theorem StringDecompress_length_unchecked (T : CType)
    (hT : T = .uint32_t ∨ T = .uint64_t ∨ T = .hugeint_t) :
    (∀ e ambient, (StringDecompress T e ambient).GetSize = e % 256)
      ∧ (∀ ambient, T.sizeof - 1 < (StringDecompress T 0xFF ambient).GetSize)
      ∧ (∀ e v, IsBytes v → StringCompress T (string_t.ofBytes v) = .ok e → e % 256 < T.sizeof)
      ∧ (∀ v, IsBytes v → StringCompress T (string_t.ofBytes v) ≠ .ok 0xFF) := by
  have hw : T.sizeof ≤ 16 := by
    rcases hT with rfl | rfl | rfl <;> decide
  have h1 : 1 ≤ T.sizeof := by
    rcases hT with rfl | rfl | rfl <;> decide
  have hc : ∀ u, StringCompress T u = StringCompressGeneric T.sizeof u := by
    intro u; rcases hT with rfl | rfl | rfl <;> rfl
  have hd : ∀ e a, StringDecompress T e a = StringDecompressGeneric T.sizeof e a := by
    intro e a; rcases hT with rfl | rfl | rfl <;> rfl
  have hsize : ∀ e ambient, (StringDecompress T e ambient).GetSize = e % 256 := by
    intro e ambient
    rw [hd]
    exact (StringDecompressGeneric_any T.sizeof e ambient h1).1
  have hmod : ∀ e v, IsBytes v → StringCompress T (string_t.ofBytes v) = .ok e →
      e % 256 < T.sizeof := by
    intro e v hb h
    rw [hc] at h
    exact StringCompressGeneric_mod T.sizeof e v hb (by omega) h
  refine ⟨hsize, ?_, hmod, ?_⟩
  · intro ambient
    rw [hsize]
    omega
  · intro v hb h
    have := hmod 0xFF v hb h
    omega

/-- C15 at the 4-byte type: the input `0xFF` decodes to a value of declared length 255. -/
theorem StringDecompress_length_unchecked_witness :
    (StringDecompress .uint32_t 0xFF []).GetSize = 255
      ∧ CType.uint32_t.sizeof - 1 < (StringDecompress .uint32_t 0xFF []).GetSize :=
  ⟨(StringDecompress_length_unchecked .uint32_t (Or.inl rfl)).1 0xFF [],
   (StringDecompress_length_unchecked .uint32_t (Or.inl rfl)).2.1 []⟩

/-! ## Order at two bytes -/

/-- C17. For byte strings `v1`, `v2` of length 0 or 1, `v1 < v2` in lexicographic byte order
exactly when the 2-byte encoding of `v1` is below that of `v2`, both being 16-bit values. -/
theorem StringCompress_uint16_strict_order (v1 v2 : List Nat) (hb1 : IsBytes v1)
    (hb2 : IsBytes v2) (h1 : v1.length ≤ 1) (h2 : v2.length ≤ 1) :
    ∃ e1 e2, StringCompress .uint16_t (string_t.ofBytes v1) = .ok e1
      ∧ StringCompress .uint16_t (string_t.ofBytes v2) = .ok e2
      ∧ e1 < 2 ^ 16 ∧ e2 < 2 ^ 16
      ∧ (lexLt v1 v2 = true ↔ e1 < e2) := by
  match v1, hb1, h1, v2, hb2, h2 with
  | [], _, _, [], _, _ =>
    exact ⟨0, 0, StringCompress_uint16_nil, StringCompress_uint16_nil, by decide, by decide,
      by decide⟩
  | [], _, _, [b], hb2, _ =>
    have hb : b < 256 := hb2 b (List.mem_singleton.2 rfl)
    refine ⟨0, 1 + b, StringCompress_uint16_nil, StringCompress_uint16_single b hb, by decide,
      by omega, ?_⟩
    simp [lexLt, lexLe]
  | [a], hb1, _, [], _, _ =>
    have ha : a < 256 := hb1 a (List.mem_singleton.2 rfl)
    refine ⟨1 + a, 0, StringCompress_uint16_single a ha, StringCompress_uint16_nil, by omega,
      by decide, ?_⟩
    simp [lexLt, lexLe]
  | [a], hb1, _, [b], hb2, _ =>
    have ha : a < 256 := hb1 a (List.mem_singleton.2 rfl)
    have hb : b < 256 := hb2 b (List.mem_singleton.2 rfl)
    refine ⟨1 + a, 1 + b, StringCompress_uint16_single a ha, StringCompress_uint16_single b hb,
      by omega, by omega, ?_⟩
    simp only [lexLt, lexLe, Bool.and_true, Bool.not_eq_true', Bool.or_eq_false_iff,
      decide_eq_false_iff_not, beq_eq_false_iff_ne]
    omega
  | _ :: _ :: _, _, h1, _, _, _ => simp at h1
  | _, _, _, _ :: _ :: _, _, h2 => simp at h2

/-- C17 for the empty value and the single byte `0x00`. -/
theorem StringCompress_uint16_strict_order_witness :
    ∃ e1 e2, StringCompress .uint16_t (string_t.ofBytes []) = .ok e1
      ∧ StringCompress .uint16_t (string_t.ofBytes [0]) = .ok e2
      ∧ e1 < 2 ^ 16 ∧ e2 < 2 ^ 16
      ∧ (lexLt [] [0] = true ↔ e1 < e2) :=
  StringCompress_uint16_strict_order [] [0] (by decide) (by decide) (by decide) (by decide)

/-! ## The image of the general encoder -/

theorem bytesBE_isBytes (w e : Nat) : IsBytes (bytesBE w e) := by
  rw [← toBytesLE_reverse]
  exact IsBytes_reverse.2 (toBytesLE_isBytes w e)

theorem fromBytesLE_bytesBE (w e : Nat) (he : e < 256 ^ w) :
    fromBytesLE (bytesBE w e).reverse = e := by
  rw [← toBytesLE_reverse, List.reverse_reverse, fromBytesLE_toBytesLE, Nat.mod_eq_of_lt he]

/-- The bytes of a pattern: the content bytes followed by the lowest-order byte. -/
theorem bytesBE_succ (n e : Nat) :
    bytesBE (n + 1) e = bytesBE n (e / 256) ++ [e % 256] := by
  rw [← toBytesLE_reverse, ← toBytesLE_reverse, toBytesLE, List.reverse_cons]

/-- The primary encoder template on its inline path, for any `string_t`. -/
theorem StringCompressGeneric_inline (w : Nat) (s : string_t) (hw : w ≤ INLINE_LENGTH)
    (hs : s.GetSize < w) :
    StringCompressGeneric w s
      = .ok (BSwap w (fromBytesLE
          ((memcpy (List.replicate w 0) s.inlined w).set (w - 1) (s.GetSize % 256)))) := by
  unfold StringCompressGeneric
  rw [if_neg (by omega)]
  simp only [if_pos hw]

/-- Storing a buffer inline as the decoder does, reading it back as the encoder does and
writing the last byte again gives the buffer. -/
theorem inline_reencode (R A : List Nat) (n x : Nat) (hR : R.length = n)
    (hn : n + 1 < INLINE_LENGTH) :
    (memcpy (List.replicate (n + 1) 0)
        (memset (memcpy A (R ++ [x]) (n + 1)) (n + 1 - 1) 0
          (sizeof_string_t - sizeof_uint32_t - (n + 1))) (n + 1)).set (n + 1 - 1) x
      = R ++ [x] := by
  unfold INLINE_LENGTH at hn
  have hm : sizeof_string_t - sizeof_uint32_t - (n + 1) = (10 - n) + 1 := by
    unfold sizeof_string_t sizeof_uint32_t; omega
  have h1 : memcpy A (R ++ [x]) (n + 1) = R ++ ([x] ++ A.drop (n + 1)) := by
    unfold memcpy
    rw [List.take_of_length_le (by simp [hR]), List.append_assoc]
  have h2 : (memset (R ++ ([x] ++ A.drop (n + 1))) (n + 1 - 1) 0 ((10 - n) + 1)).take (n + 1)
      = R ++ [0] := by
    unfold memset
    rw [Nat.add_sub_cancel, List.take_left' hR, List.replicate_succ, List.append_assoc,
      List.take_append_eq_append_take, List.take_of_length_le (by omega), hR]
    simp
  have h3 : memcpy (List.replicate (n + 1) 0)
      (memset (R ++ ([x] ++ A.drop (n + 1))) (n + 1 - 1) 0 ((10 - n) + 1)) (n + 1)
      = R ++ [0] := by
    unfold memcpy
    rw [h2]
    simp
  rw [hm, h1, h3, Nat.add_sub_cancel, List.set_append_right _ _ (by omega), hR]
  simp

/-- On the inline path the encoder undoes the decoder for every input whose low byte is below
the width. -/
theorem StringCompressGeneric_inline_inverse (w e : Nat) (ambient : List Nat) (hw1 : 1 ≤ w)
    (hw : w < INLINE_LENGTH) (he : e < 256 ^ w) (hL : e % 256 < w) :
    StringCompressGeneric w (StringDecompressGeneric w e ambient) = .ok e := by
  obtain ⟨n, rfl⟩ : ∃ n, w = n + 1 := ⟨w - 1, by omega⟩
  have hsz : (StringDecompressGeneric (n + 1) e ambient).GetSize = e % 256 :=
    (StringDecompressGeneric_any (n + 1) e ambient hw1).1
  rw [StringCompressGeneric_inline _ _ (by omega) (by rw [hsz]; exact hL), hsz]
  rw [StringDecompressGeneric_inline (n + 1) e ambient (by omega), toBytesLE_reverse,
    bytesBE_succ, Nat.mod_mod]
  simp only []
  rw [inline_reencode _ _ n _ (bytesBE_length n (e / 256)) hw, ← bytesBE_succ,
    BSwap_fromBytesLE (n + 1) _ (bytesBE_isBytes (n + 1) e) (bytesBE_length (n + 1) e),
    fromBytesLE_bytesBE (n + 1) e he]

theorem drop_eq_replicate (C : List Nat) (L : Nat)
    (h : ∀ i, i < C.length → L ≤ i → C.getD i 0 = 0) :
    C.drop L = List.replicate (C.length - L) 0 := by
  rw [List.eq_replicate_iff]
  refine ⟨by simp, ?_⟩
  intro b hb
  obtain ⟨j, hj, rfl⟩ := List.mem_iff_getElem.1 hb
  rw [List.length_drop] at hj
  rw [List.getElem_drop]
  have h0 := h (L + j) (by omega) (by omega)
  rw [List.getD_eq_getElem?_getD, List.getElem?_eq_getElem (by omega)] at h0
  exact h0

/-- A canonical pattern is the buffer of its own leading bytes. -/
theorem canonical_layout (w e : Nat) (hc : IsCanonical w e) :
    layout w ((bytesBE w e).take (e % 256)) = bytesBE w e := by
  obtain ⟨_, hL, hz⟩ := hc
  obtain ⟨n, rfl⟩ : ∃ n, w = n + 1 := ⟨w - 1, by omega⟩
  have hC : (bytesBE n (e / 256)).length = n := bytesBE_length n (e / 256)
  rw [bytesBE_succ] at hz ⊢
  have hz2 : ∀ i, i < (bytesBE n (e / 256)).length → e % 256 ≤ i →
      (bytesBE n (e / 256)).getD i 0 = 0 := by
    intro i hi hLi
    rw [hC] at hi
    have := hz i (by omega) hLi
    rw [List.getD_eq_getElem?_getD, List.getElem?_append_left (by omega)] at this
    rw [List.getD_eq_getElem?_getD]
    exact this
  have hd := drop_eq_replicate _ _ hz2
  rw [hC] at hd
  unfold layout
  rw [List.take_append_of_le_length (by omega), List.length_take, hC,
    Nat.min_eq_left (by omega), Nat.add_sub_cancel, ← hd, List.take_append_drop]

/-- On the other path the encoder undoes the decoder for every canonical input. -/
theorem StringCompressGeneric_heap_inverse (w e : Nat) (ambient : List Nat)
    (hw : ¬ w ≤ INLINE_LENGTH) (hw2 : w ≤ 256) (hc : IsCanonical w e) :
    StringCompressGeneric w (StringDecompressGeneric w e ambient) = .ok e := by
  have hL := hc.2.1
  rw [StringDecompressGeneric_heap w e ambient hw, toBytesLE_reverse,
    bytesBE_last w e (by omega),
    AddString_eq_ofBytes _ _ (by rw [List.length_append, bytesBE_length]; omega),
    List.take_append_of_le_length (by rw [bytesBE_length]; omega),
    StringCompressGeneric_ofBytes w _ (IsBytes_take (bytesBE_isBytes w e) _)
      (by rw [List.length_take, bytesBE_length]; omega) hw2,
    canonical_layout w e hc, fromBytesLE_bytesBE w e hc.1]

/-- What the encoder produces is canonical. -/
theorem layout_canonical (w : Nat) (v : List Nat) (hb : IsBytes v) (hv : v.length < w)
    (hw : w ≤ 256) : IsCanonical w (fromBytesLE (layout w v).reverse) := by
  refine ⟨?_, ?_, ?_⟩
  · have := fromBytesLE_lt (layout w v).reverse
      (IsBytes_reverse.2 (layout_isBytes w v hb hv hw))
    rw [List.length_reverse, layout_length w v hv] at this
    exact this
  · rw [fromBytesLE_layout_mod w v hb hv hw]
    exact hv
  · intro i hi hLi
    rw [fromBytesLE_layout_mod w v hb hv hw] at hLi
    rw [bytesBE_layout w v hb hv hw]
    unfold layout
    rw [List.getD_eq_getElem?_getD,
      List.getElem?_append_left (by simp only [List.length_append, List.length_replicate]; omega),
      List.getElem?_append_right hLi, List.getElem?_replicate]
    rw [if_pos (by omega)]
    rfl

/-- C16. For the types of 4, 8 and 16 bytes: encoding the value decoded from a pattern `e` of
`w` bytes whose lowest-order byte `L` is below `w` and whose content bytes at the big-endian
positions `L … w - 2` are zero gives `e` again, whatever memory the decoder starts from; and
every encoding of a byte string has this form. -/
theorem StringCompress_image (T : CType)
    (hT : T = .uint32_t ∨ T = .uint64_t ∨ T = .hugeint_t) :
    (∀ e ambient, IsCanonical T.sizeof e →
        StringCompress T (StringDecompress T e ambient) = .ok e)
      ∧ (∀ v, IsBytes v → v.length < T.sizeof →
          ∃ e, StringCompress T (string_t.ofBytes v) = .ok e ∧ IsCanonical T.sizeof e) := by
  have hc : ∀ u, StringCompress T u = StringCompressGeneric T.sizeof u := by
    intro u; rcases hT with rfl | rfl | rfl <;> rfl
  have hd : ∀ e a, StringDecompress T e a = StringDecompressGeneric T.sizeof e a := by
    intro e a; rcases hT with rfl | rfl | rfl <;> rfl
  have hw : T.sizeof ≤ 256 := by
    rcases hT with rfl | rfl | rfl <;> decide
  constructor
  · intro e ambient hcan
    rw [hc, hd]
    rcases hT with rfl | rfl | rfl
    · exact StringCompressGeneric_inline_inverse 4 e ambient (by decide) (by decide)
        hcan.1 hcan.2.1
    · exact StringCompressGeneric_inline_inverse 8 e ambient (by decide) (by decide)
        hcan.1 hcan.2.1
    · exact StringCompressGeneric_heap_inverse 16 e ambient (by decide) (by decide) hcan
  · intro v hb hv
    exact ⟨_, by rw [hc, StringCompressGeneric_ofBytes _ v hb hv hw],
      layout_canonical _ v hb hv hw⟩

/-- C16 at the 16-byte type, for the encoding of a 13-byte value and for the value "AB". -/
theorem StringCompress_image_witness :
    StringCompress .hugeint_t
        (StringDecompress .hugeint_t (encodedValue 16 [1, 2, 3, 4, 5, 6, 7, 8, 9, 10, 11, 12, 13]) [])
        = .ok (encodedValue 16 [1, 2, 3, 4, 5, 6, 7, 8, 9, 10, 11, 12, 13])
      ∧ ∃ e, StringCompress .hugeint_t (string_t.ofBytes [65, 66]) = .ok e
          ∧ IsCanonical 16 e :=
  ⟨(StringCompress_image .hugeint_t (Or.inr (Or.inr rfl))).1 _ [] (by decide),
   (StringCompress_image .hugeint_t (Or.inr (Or.inr rfl))).2 [65, 66] (by decide) (by decide)⟩

/-! ## The batch adapter -/

theorem Execute_nil {α β : Type} (fn : α → Except Exception β) :
    UnaryExecutor.Execute ([] : List α) 0 fn = .ok [] := rfl

theorem Execute_cons {α β : Type} (x : α) (xs : List α) (n : Nat)
    (fn : α → Except Exception β) :
    UnaryExecutor.Execute (x :: xs) (n + 1) fn =
      match fn x with
      | .error err => .error err
      | .ok y =>
        match UnaryExecutor.Execute xs n fn with
        | .error err => .error err
        | .ok ys => .ok (y :: ys) := by
  rw [UnaryExecutor.Execute]

/-- The batch succeeds with `r` exactly when `r` is, row by row, what the function returns. -/
theorem Execute_ok_iff {α β : Type} (fn : α → Except Exception β) (input : List α)
    (r : List β) :
    UnaryExecutor.Execute input input.length fn = .ok r
      ↔ List.Forall₂ (fun x y => fn x = .ok y) input r := by
  induction input generalizing r with
  | nil =>
    rw [List.length_nil, Execute_nil]
    constructor
    · intro h
      injection h with h
      subst h
      exact List.Forall₂.nil
    · intro h
      cases h
      rfl
  | cons x xs ih =>
    rw [List.length_cons, Execute_cons]
    cases hx : fn x with
    | error err =>
      constructor
      · intro h; exact Except.noConfusion h
      · intro h
        cases h with
        | cons h1 _ => rw [hx] at h1; exact Except.noConfusion h1
    | ok y =>
      cases hxs : UnaryExecutor.Execute xs xs.length fn with
      | error err =>
        constructor
        · intro h; exact Except.noConfusion h
        · intro h
          cases h with
          | cons h1 h2 =>
            have := (ih _).2 h2
            rw [hxs] at this
            exact Except.noConfusion this
      | ok ys =>
        constructor
        · intro h
          injection h with h
          subst h
          exact List.Forall₂.cons hx ((ih ys).1 hxs)
        · intro h
          cases h with
          | cons h1 h2 =>
            rw [hx] at h1
            injection h1 with h1
            have := (ih _).2 h2
            rw [hxs] at this
            injection this with this
            rw [h1, this]

/-- The batch fails exactly when the function fails for some row. -/
theorem Execute_error_iff {α β : Type} (fn : α → Except Exception β) (input : List α) :
    (∃ err, UnaryExecutor.Execute input input.length fn = .error err)
      ↔ ∃ x ∈ input, ∃ err, fn x = .error err := by
  induction input with
  | nil =>
    rw [List.length_nil, Execute_nil]
    constructor
    · rintro ⟨err, h⟩; exact Except.noConfusion h
    · rintro ⟨x, hx, _⟩; simp at hx
  | cons x xs ih =>
    rw [List.length_cons, Execute_cons]
    cases hx : fn x with
    | error err =>
      exact ⟨fun _ => ⟨x, List.mem_cons_self x xs, err, hx⟩, fun _ => ⟨err, rfl⟩⟩
    | ok y =>
      cases hxs : UnaryExecutor.Execute xs xs.length fn with
      | error err =>
        constructor
        · intro _
          obtain ⟨z, hz, e2, he2⟩ := ih.1 ⟨err, hxs⟩
          exact ⟨z, List.mem_cons_of_mem x hz, e2, he2⟩
        · intro _; exact ⟨err, rfl⟩
      | ok ys =>
        constructor
        · rintro ⟨err, h⟩; exact Except.noConfusion h
        · rintro ⟨z, hz, e2, he2⟩
          rcases List.mem_cons.1 hz with rfl | hz
          · rw [hx] at he2; exact Except.noConfusion he2
          · obtain ⟨e3, he3⟩ := ih.2 ⟨z, hz, e2, he2⟩
            rw [hxs] at he3
            exact Except.noConfusion he3

/-- A function that never throws is applied to every row. -/
theorem Execute_total {α β : Type} (f : α → β) (input : List α) :
    UnaryExecutor.Execute input input.length (fun x => .ok (f x)) = .ok (input.map f) := by
  induction input with
  | nil => rfl
  | cons x xs ih => rw [List.length_cons, Execute_cons, ih]; rfl

/-- C13. The batch functions apply the encoder or the decoder row by row and stop at the
first exception; but at the 2-byte type the encoder throws for no row, so a batch holding the
two-byte value "AB", which is beyond that width, is encoded (to 67) instead of failing. At the
4-byte type a batch with the value "WXYZ" fails. -/
theorem StringCompressFunction_uint16_no_error :
    StringCompressFunction .uint16_t [string_t.ofBytes [65, 66]] = .ok [67]
      ∧ (∀ args, ∃ r, StringCompressFunction .uint16_t args = .ok r)
      ∧ StringCompressFunction .uint32_t
          [string_t.ofBytes [87, 88, 89], string_t.ofBytes [87, 88, 89, 90], string_t.ofBytes [65]]
          = .error (.InvalidInputException 4 4)
      ∧ (∀ T args r, StringCompressFunction T args = .ok r
          ↔ List.Forall₂ (fun s e => StringCompress T s = .ok e) args r)
      ∧ (∀ T args, (∃ err, StringCompressFunction T args = .error err)
          ↔ ∃ s ∈ args, ∃ err, StringCompress T s = .error err)
      ∧ (∀ T args ambient, StringDecompressFunction T args ambient
          = .ok (args.enum.map (fun row => StringDecompress T row.2 (ambient row.1)))) := by
  refine ⟨by decide, ?_, by decide, fun T args r => Execute_ok_iff _ args r,
    fun T args => Execute_error_iff _ args, ?_⟩
  · intro args
    cases h : StringCompressFunction .uint16_t args with
    | ok r => exact ⟨r, rfl⟩
    | error err =>
      obtain ⟨s, _, e2, he2⟩ := (Execute_error_iff _ args).1 ⟨err, h⟩
      exact Except.noConfusion he2
  · intro T args ambient
    unfold StringDecompressFunction
    rw [← List.enum_length, Execute_total]

/-! ## JSON containment: one step of each function -/

theorem attach_any {α : Type} (l : List α) (f : α → Bool) :
    l.attach.any (fun x => f x.1) = l.any f := by
  apply Bool.eq_iff_iff.2
  simp only [List.any_eq_true]
  constructor
  · rintro ⟨⟨x, hx⟩, _, h⟩
    exact ⟨x, hx, h⟩
  · rintro ⟨x, hx, h⟩
    exact ⟨⟨x, hx⟩, List.mem_attach _ _, h⟩

theorem attach_all {α : Type} (l : List α) (f : α → Bool) :
    l.attach.all (fun x => f x.1) = l.all f := by
  apply Bool.eq_iff_iff.2
  simp only [List.all_eq_true]
  constructor
  · intro h x hx
    exact h ⟨x, hx⟩ (List.mem_attach _ _)
  · rintro h ⟨x, hx⟩ _
    exact h x hx

theorem JSONArrayContains_eq (equals : yyjson_val → yyjson_val → Bool)
    (haystack needle : yyjson_val) :
    JSONArrayContains equals haystack needle
      = needle.elems.all (fun needle_child => JSONContainsRecursive equals haystack needle_child) := by
  rw [JSONArrayContains]
  exact attach_all needle.elems (fun c => JSONContainsRecursive equals haystack c)

theorem JSONObjectContains_eq (equals : yyjson_val → yyjson_val → Bool)
    (haystack needle : yyjson_val) :
    JSONObjectContains equals haystack needle
      = needle.members.all (fun member => JSONContainsRecursive equals haystack member.2) := by
  rw [JSONObjectContains]
  exact attach_all needle.members (fun m => JSONContainsRecursive equals haystack m.2)

theorem JSONContainsRecursive_eq (equals : yyjson_val → yyjson_val → Bool)
    (haystack needle : yyjson_val) :
    JSONContainsRecursive equals haystack needle =
      if equals haystack needle then
        true
      else if haystack.is_arr then
        if needle.is_arr && JSONArrayContains equals haystack needle then
          true
        else
          haystack.elems.any (fun child_haystack =>
            JSONContainsRecursive equals child_haystack needle)
      else if haystack.is_obj then
        if needle.is_obj && JSONObjectContains equals haystack needle then
          true
        else
          haystack.members.any (fun member =>
            JSONContainsRecursive equals member.2 needle)
      else
        false := by
  rw [JSONContainsRecursive]
  rw [attach_any haystack.elems (fun c => JSONContainsRecursive equals c needle),
    attach_any haystack.members (fun m => JSONContainsRecursive equals m.2 needle)]

theorem is_arr_of_mem_elems {h c : yyjson_val} (hc : c ∈ h.elems) : h.is_arr = true := by
  cases h <;> simp only [yyjson_val.elems, List.not_mem_nil] at hc
  rfl

theorem is_obj_of_mem_members {h : yyjson_val} {m : String × yyjson_val}
    (hm : m ∈ h.members) : h.is_obj = true := by
  cases h <;> simp only [yyjson_val.members, List.not_mem_nil] at hm
  rfl

theorem not_is_arr_of_is_obj {h : yyjson_val} (hh : h.is_obj = true) : h.is_arr = false := by
  cases h <;> simp only [yyjson_val.is_obj, Bool.false_eq_true] at hh
  rfl

/-! ## JSON containment: the keys of the needle -/

/-- C18. For an object haystack `h` and an object needle `n`, `JSONContains(h, n)` is true as
soon as every member value of `n` is contained in `h`, under whatever key it is stored in `n`;
so the haystack `{"a": 1}` contains the needle `{"b": 1}`, whose only key does not occur in
the haystack, whenever the comparison finds `1` equal to `1`. -/
theorem JSONContains_ignores_keys (equals : yyjson_val → yyjson_val → Bool) :
    (∀ h n : yyjson_val, h.is_obj = true → n.is_obj = true →
        (∀ m ∈ n.members, JSONContainsRecursive equals h m.2 = true) →
        JSONContains equals h n = true)
      ∧ (equals (.uint 1) (.uint 1) = true →
          JSONContains equals (.obj [("a", .uint 1)]) (.obj [("b", .uint 1)]) = true
            ∧ ∀ m ∈ (yyjson_val.obj [("b", .uint 1)]).members,
                ∀ m2 ∈ (yyjson_val.obj [("a", .uint 1)]).members, m.1 ≠ m2.1) := by
  have main : ∀ h n : yyjson_val, h.is_obj = true → n.is_obj = true →
      (∀ m ∈ n.members, JSONContainsRecursive equals h m.2 = true) →
      JSONContains equals h n = true := by
    intro h n hh hn hall
    rw [JSONContains, JSONContainsRecursive_eq]
    by_cases he : equals h n = true
    · rw [if_pos he]
    · rw [if_neg he, not_is_arr_of_is_obj hh, if_neg (by simp), if_pos hh]
      have ho : JSONObjectContains equals h n = true := by
        rw [JSONObjectContains_eq, List.all_eq_true]
        exact hall
      rw [hn, ho]
      rfl
  refine ⟨main, fun h1 => ⟨?_, ?_⟩⟩
  · apply main (.obj [("a", .uint 1)]) (.obj [("b", .uint 1)]) rfl rfl
    intro m hm
    simp only [yyjson_val.members, List.mem_singleton] at hm
    subst hm
    rw [JSONContainsRecursive_eq]
    by_cases he : equals (.obj [("a", .uint 1)]) (.uint 1) = true
    · rw [if_pos he]
    · rw [if_neg he]
      have hi : JSONContainsRecursive equals (.uint 1) (.uint 1) = true := by
        rw [JSONContainsRecursive_eq, if_pos h1]
      simp [yyjson_val.is_arr, yyjson_val.is_obj, yyjson_val.members, hi]
  · intro m hm m2 hm2
    simp only [yyjson_val.members, List.mem_singleton] at hm hm2
    subst hm hm2
    decide

/-- C18 with the comparison of trees: `{"a": 1}` contains `{"b": 1}`. -/
theorem JSONContains_ignores_keys_witness :
    JSONContains treeEquals (.obj [("a", .uint 1)]) (.obj [("b", .uint 1)]) = true
      ∧ ∀ m ∈ (yyjson_val.obj [("b", .uint 1)]).members,
          ∀ m2 ∈ (yyjson_val.obj [("a", .uint 1)]).members, m.1 ≠ m2.1 :=
  (JSONContains_ignores_keys treeEquals).2 (by decide)

/-! ## JSON containment: nested occurrences -/

theorem JSONContainsRecursive_nested (equals : yyjson_val → yyjson_val → Bool)
    (h n x : yyjson_val) (hx : Nested h x) (he : equals x n = true) :
    JSONContainsRecursive equals h n = true := by
  induction hx with
  | refl h => rw [JSONContainsRecursive_eq, if_pos he]
  | @step h c x hc _ ih =>
    have hcn := ih he
    rw [JSONContainsRecursive_eq]
    by_cases heq : equals h n = true
    · rw [if_pos heq]
    · rw [if_neg heq]
      rcases hc with hc | ⟨m, hm, rfl⟩
      · rw [if_pos (is_arr_of_mem_elems hc)]
        by_cases hcond : (n.is_arr && JSONArrayContains equals h n) = true
        · rw [if_pos hcond]
        · rw [if_neg hcond, List.any_eq_true]
          exact ⟨c, hc, hcn⟩
      · rw [not_is_arr_of_is_obj (is_obj_of_mem_members hm), if_neg (by simp),
          if_pos (is_obj_of_mem_members hm)]
        by_cases hcond : (n.is_obj && JSONObjectContains equals h n) = true
        · rw [if_pos hcond]
        · rw [if_neg hcond, List.any_eq_true]
          exact ⟨m, hm, hcn⟩

/-- C19. If the comparison finds the needle `n` equal to the haystack `h` or to a value nested
in `h` at any depth, an array element or an object member value, then `JSONContains(h, n)` is
true; so `JSONContains(h, h)` is true whenever `h` compares equal to itself. -/
theorem JSONContains_nested (equals : yyjson_val → yyjson_val → Bool) (h n : yyjson_val) :
    (∀ x, Nested h x → equals x n = true → JSONContains equals h n = true)
      ∧ (equals h h = true → JSONContains equals h h = true) :=
  ⟨fun x hx he => JSONContainsRecursive_nested equals h n x hx he,
   fun he => JSONContainsRecursive_nested equals h h h (Nested.refl h) he⟩

/-- C19 for the needle `2` in the haystack `[{"k": [1, 2]}]`, and for that haystack in
itself. -/
theorem JSONContains_nested_witness :
    JSONContains treeEquals
        (.arr [.obj [("k", .arr [.uint 1, .uint 2])]]) (.uint 2) = true
      ∧ JSONContains treeEquals (.arr [.obj [("k", .arr [.uint 1, .uint 2])]])
          (.arr [.obj [("k", .arr [.uint 1, .uint 2])]]) = true :=
  ⟨(JSONContains_nested treeEquals (.arr [.obj [("k", .arr [.uint 1, .uint 2])]]) (.uint 2)).1
      (.uint 2)
      (Nested.step (Or.inl (List.mem_singleton.2 rfl))
        (Nested.step (Or.inr ⟨("k", .arr [.uint 1, .uint 2]), List.mem_singleton.2 rfl, rfl⟩)
          (Nested.step (Or.inl (List.mem_cons_of_mem _ (List.mem_singleton.2 rfl)))
            (Nested.refl _))))
      (by decide),
   (JSONContains_nested treeEquals (.arr [.obj [("k", .arr [.uint 1, .uint 2])]])
      (.arr [.obj [("k", .arr [.uint 1, .uint 2])]])).2 (by decide)⟩

/-! ## JSON containment: termination -/

theorem yyjson_val_sizeOf_pos (v : yyjson_val) : 0 < sizeOf v := by
  cases v <;> simp

theorem sizeOf_lt_of_isChild {c v : yyjson_val} (hc : IsChild c v) : sizeOf c < sizeOf v := by
  rcases hc with hc | ⟨m, hm, rfl⟩
  · cases v <;> simp only [yyjson_val.elems, List.not_mem_nil] at hc
    have := List.sizeOf_lt_of_mem hc
    simp only [yyjson_val.arr.sizeOf_spec]
    omega
  · cases v <;> simp only [yyjson_val.members, List.not_mem_nil] at hm
    have h1 := List.sizeOf_lt_of_mem hm
    have h2 : sizeOf m = 1 + sizeOf m.1 + sizeOf m.2 := by cases m; rfl
    simp only [yyjson_val.obj.sizeOf_spec]
    omega

theorem allOpt_some {α : Type} (f : α → Option Bool) (g : α → Bool) (l : List α)
    (h : ∀ x ∈ l, f x = some (g x)) : allOpt f l = some (l.all g) := by
  induction l with
  | nil => rfl
  | cons x xs ih =>
    have hx := h x (List.mem_cons_self x xs)
    have hxs := ih (fun y hy => h y (List.mem_cons_of_mem x hy))
    rw [allOpt, hx, List.all_cons]
    cases g x
    · rfl
    · simp only [hxs, Bool.true_and]

theorem anyOpt_some {α : Type} (f : α → Option Bool) (g : α → Bool) (l : List α)
    (h : ∀ x ∈ l, f x = some (g x)) : anyOpt f l = some (l.any g) := by
  induction l with
  | nil => rfl
  | cons x xs ih =>
    have hx := h x (List.mem_cons_self x xs)
    have hxs := ih (fun y hy => h y (List.mem_cons_of_mem x hy))
    rw [anyOpt, hx, List.any_cons]
    cases g x
    · simp only [hxs, Bool.false_or]
    · rfl

/-- With fuel above twice the size of the arguments the bounded functions return what the
functions return. -/
theorem fuel_adequate (equals : yyjson_val → yyjson_val → Bool) :
    ∀ (fuel : Nat) (h n : yyjson_val),
      (2 * (sizeOf h + sizeOf n) + 1 ≤ fuel →
        JSONContainsRecursiveFuel equals fuel h n = some (JSONContainsRecursive equals h n))
      ∧ (2 * (sizeOf h + sizeOf n) ≤ fuel →
        JSONArrayContainsFuel equals fuel h n = some (JSONArrayContains equals h n))
      ∧ (2 * (sizeOf h + sizeOf n) ≤ fuel →
        JSONObjectContainsFuel equals fuel h n = some (JSONObjectContains equals h n)) := by
  intro fuel
  induction fuel with
  | zero =>
    intro h n
    have := yyjson_val_sizeOf_pos h
    exact ⟨fun hle => absurd hle (by omega), fun hle => absurd hle (by omega),
      fun hle => absurd hle (by omega)⟩
  | succ k ih =>
    intro h n
    refine ⟨?_, ?_, ?_⟩
    · intro hle
      have hany : anyOpt (fun c => JSONContainsRecursiveFuel equals k c n) h.elems
          = some (h.elems.any (fun c => JSONContainsRecursive equals c n)) :=
        anyOpt_some _ _ _ (fun c hc => (ih c n).1
          (by have := sizeOf_lt_of_isChild (Or.inl hc : IsChild c h); omega))
      have hanym : anyOpt (fun m => JSONContainsRecursiveFuel equals k m.2 n) h.members
          = some (h.members.any (fun m => JSONContainsRecursive equals m.2 n)) :=
        anyOpt_some _ (fun m => JSONContainsRecursive equals m.2 n) _ (fun m hm => (ih m.2 n).1
          (by have := sizeOf_lt_of_isChild (Or.inr ⟨m, hm, rfl⟩ : IsChild m.2 h); omega))
      have harr := (ih h n).2.1 (by omega)
      have hobj := (ih h n).2.2 (by omega)
      rw [JSONContainsRecursiveFuel, JSONContainsRecursive_eq, harr, hobj, hany, hanym]
      by_cases he : equals h n = true
      · simp [he]
      · simp only [he, if_false, Bool.false_eq_true]
        cases h.is_arr <;> cases h.is_obj <;> cases n.is_arr <;> cases n.is_obj <;>
          cases JSONArrayContains equals h n <;> cases JSONObjectContains equals h n <;> simp
    · intro hle
      rw [JSONArrayContainsFuel, JSONArrayContains_eq]
      exact allOpt_some _ _ _ (fun c hc => (ih h c).1
        (by have := sizeOf_lt_of_isChild (Or.inl hc : IsChild c n); omega))
    · intro hle
      rw [JSONObjectContainsFuel, JSONObjectContains_eq]
      exact allOpt_some (fun m : String × yyjson_val => JSONContainsRecursiveFuel equals k h m.2)
        (fun m => JSONContainsRecursive equals h m.2) _ (fun m hm => (ih h m.2).1
        (by have := sizeOf_lt_of_isChild (Or.inr ⟨m, hm, rfl⟩ : IsChild m.2 n); omega))

theorem CallShrinks_lt (callee caller : yyjson_val × yyjson_val)
    (hc : CallShrinks callee caller) :
    sizeOf callee.1 + sizeOf callee.2 < sizeOf caller.1 + sizeOf caller.2 := by
  rcases hc with ⟨h1, h2⟩ | ⟨h1, h2⟩
  · have := sizeOf_lt_of_isChild h2
    rw [h1]
    omega
  · have := sizeOf_lt_of_isChild h2
    rw [h1]
    omega

theorem CallShrinks_wf : WellFounded CallShrinks :=
  Subrelation.wf (fun {a b} hab => CallShrinks_lt a b hab)
    (InvImage.wf (fun p : yyjson_val × yyjson_val => sizeOf p.1 + sizeOf p.2) Nat.lt_wfRel.wf)

/-- C20. The three functions terminate on every pair of JSON values: run with a bound on the
depth of the calls that is above twice the size of the arguments, `JSONContainsRecursive`
returns, and returns the value of the total function `JSONContains`; a call that keeps one
argument and replaces the other by one of its children shrinks the size of the arguments, and
no infinite chain of such calls exists. -/
theorem JSONContains_terminates (equals : yyjson_val → yyjson_val → Bool) (h n : yyjson_val)
    (k : Nat) (hk : 2 * (sizeOf h + sizeOf n) + 1 ≤ k) :
    JSONContainsRecursiveFuel equals k h n = some (JSONContains equals h n)
      ∧ WellFounded CallShrinks
      ∧ (∀ callee caller, CallShrinks callee caller →
          sizeOf callee.1 + sizeOf callee.2 < sizeOf caller.1 + sizeOf caller.2) :=
  ⟨(fuel_adequate equals k h n).1 hk, CallShrinks_wf, CallShrinks_lt⟩

/-- C20 for the haystack `[1, [2]]` and the needle `[2]`, with a bound of 40. -/
theorem JSONContains_terminates_witness :
    JSONContainsRecursiveFuel treeEquals 40 (.arr [.uint 1, .arr [.uint 2]]) (.arr [.uint 2])
        = some (JSONContains treeEquals (.arr [.uint 1, .arr [.uint 2]]) (.arr [.uint 2]))
      ∧ WellFounded CallShrinks
      ∧ (∀ callee caller, CallShrinks callee caller →
          sizeOf callee.1 + sizeOf callee.2 < sizeOf caller.1 + sizeOf caller.2) :=
  JSONContains_terminates treeEquals (.arr [.uint 1, .arr [.uint 2]]) (.arr [.uint 2]) 40
    (by decide)

end duckdb
